import Mathlib

/-!
Verification of the phobos-rs task-graph core (`src/task_graph.rs`).

Shallow embedding conventions:
* Rust `String` is modelled as its character sequence `List Char`.
* `vk::AccessFlags2` and `PipelineStage` (`vk::PipelineStageFlags2`) are bitmask
  types; they are modelled as `Nat` with the documented Vulkan bit values, and
  bitwise or is `Nat.lor` (`|||`).
* `petgraph::graph::Graph<N, String>` is modelled as a node list plus an edge
  list.  petgraph stores per-node adjacency lists with the most recently added
  edge first, so the edge list is kept newest-first; `Graph::edges`,
  `find_edge` and `update_edge` all traverse newest-first.
  `Graph::remove_node` swap-removes: the node with the last index is moved
  into the removed slot and edges referring to the last index are repointed.
* Fallible Rust code returning `Result` is embedded with `Except Error`;
  places where the source `unwrap()`s / `panic!`s on conditions that are not
  statically excluded are embedded in `Option`, with `none` for the panic.
-/

/-- UID strings of virtual resources (Rust `String` as a character list). -/
abbrev Uid := List Char

/-- Modelled from the source error enum variants used by `task_graph.rs`
(`crate::error::Error`; only the three variants the task graph produces are
relevant, matching the spec's error taxonomy). -/
inductive Error where
  | NodeNotFound
  | GraphHasCycle
  | IllegalTaskGraph
deriving DecidableEq, Repr

deriving instance DecidableEq for Except

/-- `str::starts_with` on character lists: does the first list start with the
second one? -/
def starts_with : Uid → Uid → Bool
  | _, [] => true
  | [], _ :: _ => false
  | c :: s, d :: p => c == d && starts_with s p

/-- Does the UID end with the version sentinel `'+'`?
(Rust `self.uid.ends_with('+')`.) -/
def endsWithPlus (u : Uid) : Bool := u.getLast? == some '+'

/-- `VirtualResource`: an entity identified solely by a UID string. -/
structure VirtualResource where
  uid : Uid
deriving DecidableEq, Repr

/-- `VirtualResource::upgrade`: append one `'+'` sentinel to the UID. -/
def VirtualResource.upgrade (v : VirtualResource) : VirtualResource :=
  { uid := v.uid ++ ['+'] }

/-- `VirtualResource::name`: the UID with every `'+'` removed
(Rust `name.retain(|c| c != '+')`). -/
def VirtualResource.name (v : VirtualResource) : Uid :=
  v.uid.filter (fun c => c != '+')

/-- `VirtualResource::is_source`: no trailing sentinel. -/
def VirtualResource.is_source (v : VirtualResource) : Bool :=
  !(endsWithPlus v.uid)

/-- `VirtualResource::are_associated`: the larger UID starts with the smaller
one. -/
def VirtualResource.are_associated (lhs rhs : VirtualResource) : Bool :=
  let larger := if lhs.uid.length ≥ rhs.uid.length then lhs else rhs
  let smaller := if lhs.uid.length < rhs.uid.length then lhs else rhs
  starts_with larger.uid smaller.uid

/-- `VirtualResource::is_older`: associated and strictly shorter UID. -/
def VirtualResource.is_older (lhs rhs : VirtualResource) : Bool :=
  if !(VirtualResource.are_associated lhs rhs) then false
  else decide (lhs.uid.length < rhs.uid.length)

/-- `VirtualResource::is_younger`: associated and strictly longer UID. -/
def VirtualResource.is_younger (lhs rhs : VirtualResource) : Bool :=
  if !(VirtualResource.are_associated lhs rhs) then false
  else decide (rhs.uid.length < lhs.uid.length)

/-- `ResourceUsage`: closed usage enumeration. -/
inductive ResourceUsage where
  | Nothing
  | Present
  | Attachment
  | ShaderRead
  | ShaderWrite
deriving DecidableEq, Repr

/-- Vulkan access-mask bits (`vk::AccessFlags2`), as documented:
`NONE = 0`, `SHADER_READ = 0x20`, `SHADER_WRITE = 0x40`,
`COLOR_ATTACHMENT_WRITE = 0x100`. -/
def AccessFlags2.NONE : Nat := 0

def AccessFlags2.SHADER_READ : Nat := 0x20

def AccessFlags2.SHADER_WRITE : Nat := 0x40

def AccessFlags2.COLOR_ATTACHMENT_WRITE : Nat := 0x100

/-- Vulkan pipeline-stage bits (`vk::PipelineStageFlags2`):
`NONE = 0`, `TOP_OF_PIPE = 1`. -/
def PipelineStage.NONE : Nat := 0

def PipelineStage.TOP_OF_PIPE : Nat := 1

/-- `ResourceUsage::access`. -/
def ResourceUsage.access : ResourceUsage → Nat
  | .Nothing => AccessFlags2.NONE
  | .Present => AccessFlags2.NONE
  | .Attachment => AccessFlags2.COLOR_ATTACHMENT_WRITE
  | .ShaderRead => AccessFlags2.SHADER_READ
  | .ShaderWrite => AccessFlags2.SHADER_WRITE

/-- `ResourceUsage::is_read`. -/
def ResourceUsage.is_read : ResourceUsage → Bool
  | .Nothing => true
  | .Present => false
  | .Attachment => false
  | .ShaderRead => true
  | .ShaderWrite => false

/-- `GpuResource { usage, resource, stage }`. -/
structure GpuResource where
  usage : ResourceUsage
  resource : VirtualResource
  stage : Nat
deriving DecidableEq, Repr

/-- `Resource::uid` for `GpuResource` (`self.virtual_resource().uid`). -/
def GpuResource.uid (r : GpuResource) : Uid := r.resource.uid

/-- `Resource::is_dependency_of` for `GpuResource`: exact UID equality. -/
def GpuResource.is_dependency_of (r lhs : GpuResource) : Bool :=
  r.uid == lhs.uid

/-- `GpuBarrier` (specialised to `R = GpuResource`). -/
structure GpuBarrier where
  resource : GpuResource
  src_access : Nat
  dst_access : Nat
  src_stage : Nat
  dst_stage : Nat
deriving DecidableEq, Repr

/-- `Barrier::new` for `GpuBarrier`: source side from the resource,
destination side initialised to none. -/
def GpuBarrier.new (resource : GpuResource) : GpuBarrier :=
  { resource := resource
    src_access := resource.usage.access
    dst_access := AccessFlags2.NONE
    src_stage := resource.stage
    dst_stage := PipelineStage.NONE }

/-- `GpuTask` (the `execute` callback is an opaque function pointer that the
graph never inspects or invokes; it is omitted from the embedding). -/
structure GpuTask where
  identifier : Uid
  inputs : List GpuResource
  outputs : List GpuResource
deriving DecidableEq, Repr

/-- `Node`: tagged variant over task and barrier (the `_Unreachable` phantom
variant is uninhabited and omitted). -/
inductive SNode where
  | task (t : GpuTask)
  | barrier (b : GpuBarrier)
deriving DecidableEq, Repr

/-- The petgraph `Graph<Node, String>`: node list (index = position) and edge
list `(source, target, weight)`, newest edge first. -/
structure SGraph where
  nodes : List SNode
  edges : List (Nat × Nat × Uid)
deriving DecidableEq, Repr

/-- `Graph::add_node`: append; the new node's index is the old node count. -/
def addNode (g : SGraph) (n : SNode) : SGraph × Nat :=
  ({ g with nodes := g.nodes ++ [n] }, g.nodes.length)

/-- `Graph::add_edge`: a new edge goes to the head of the adjacency lists. -/
def addEdge (g : SGraph) (a b : Nat) (w : Uid) : SGraph :=
  { g with edges := (a, b, w) :: g.edges }

/-- `Graph::edges(a)`: outgoing edges of `a`, newest first. -/
def outEdges (g : SGraph) (a : Nat) : List (Nat × Nat × Uid) :=
  g.edges.filter (fun e => e.1 == a)

/-- Incoming edges of `a` (`edges_directed(a, Incoming)`), newest first. -/
def inEdges (g : SGraph) (a : Nat) : List (Nat × Nat × Uid) :=
  g.edges.filter (fun e => e.2.1 == a)

/-- `Graph::find_edge(a, b)`: the first (most recently added) edge `a → b`. -/
def findEdge (g : SGraph) (a b : Nat) : Option (Nat × Nat × Uid) :=
  g.edges.find? (fun e => e.1 == a && e.2.1 == b)

/-- Replace the weight of the first `a → b` edge. -/
def setFirstEdge : List (Nat × Nat × Uid) → Nat → Nat → Uid → List (Nat × Nat × Uid)
  | [], _, _, _ => []
  | e :: es, a, b, w =>
    if e.1 == a && e.2.1 == b then (a, b, w) :: es
    else e :: setFirstEdge es a b w

/-- `Graph::update_edge(a, b, w)`: update the first `a → b` edge's weight if
one exists, otherwise add a new edge. -/
def updateEdge (g : SGraph) (a b : Nat) (w : Uid) : SGraph :=
  match findEdge g a b with
  | some _ => { g with edges := setFirstEdge g.edges a b w }
  | none => addEdge g a b w

/-- Remove the first `a → b` edge (the source removes the edge returned by
`find_edge`). -/
def removeFirstEdge : List (Nat × Nat × Uid) → Nat → Nat → List (Nat × Nat × Uid)
  | [], _, _ => []
  | e :: es, a, b =>
    if e.1 == a && e.2.1 == b then es
    else e :: removeFirstEdge es a b

/-- `Graph::remove_node(i)`: drop node `i` with its incident edges; the node
with the last index is moved into slot `i` and edges referring to the last
index are repointed to `i`. -/
def removeNodeSwap (g : SGraph) (i : Nat) : SGraph :=
  match g.nodes.getLast? with
  | none => g
  | some ln =>
    let last := g.nodes.length - 1
    let edges := g.edges.filter (fun e => !(e.1 == i) && !(e.2.1 == i))
    let edges := edges.map (fun e =>
      ((if e.1 == last then i else e.1), (if e.2.1 == last then i else e.2.1), e.2.2))
    { nodes := (g.nodes.set i ln).dropLast, edges := edges }

/-- `Graph::retain_nodes`: visit indices in reverse order, removing each node
the predicate rejects (petgraph iterates `node_indices().rev()`; in reverse
order the occupant of a not-yet-visited slot is always the original node, so
the predicate sees original indices). -/
def retainNodes (g : SGraph) (keep : Nat → Bool) : SGraph :=
  (List.range g.nodes.length).reverse.foldl
    (fun acc i => if keep i then acc else removeNodeSwap acc i) g

/-- `TaskGraph::is_dependent(child, parent)`: the first input of the child
task satisfied by some output of the parent task.  (The source returns
`Err(NodeNotFound)` on an invalid index and the caller `unwrap()`s; `add_task`
only passes valid indices, so the invalid case is folded into `none`.) -/
def isDependent (g : SGraph) (child parent : Nat) : Option GpuResource :=
  match g.nodes.get? child, g.nodes.get? parent with
  | some (.task c), some (.task p) =>
    c.inputs.find? (fun input => p.outputs.any (fun output => input.is_dependency_of output))
  | _, _ => none

/-- Successors of a node through the edge list. -/
def succs (g : SGraph) (a : Nat) : List Nat :=
  (outEdges g a).map (fun e => e.2.1)

/-- Bounded reachability: is there a path of length at most `fuel` from `a`
to `b`? -/
def reachF (succ : Nat → List Nat) : Nat → Nat → Nat → Bool
  | 0, a, b => a == b
  | fuel + 1, a, b => a == b || (succ a).any (fun c => reachF succ fuel c b)

/-- Generic directed-cycle test over a successor function on `0 .. n-1`. -/
def cyclicF (succ : Nat → List Nat) (n : Nat) : Bool :=
  (List.range n).any (fun a => (succ a).any (fun c => reachF succ n c a))

/-- `petgraph::algo::is_cyclic_directed`: does the graph contain a cycle? -/
def isCyclicDirected (g : SGraph) : Bool :=
  cyclicF (succs g) g.nodes.length

/-- The per-node body of `add_task`'s edge-update loop: if the new `node`
depends on `other`, add an edge `other → node`; if `other` depends on `node`,
add an edge `node → other` (no `else`: both directions are evaluated). -/
def addTaskStep (node : Nat) (acc : SGraph) (other : Nat) : SGraph :=
  let acc1 := match isDependent acc node other with
    | some dependency => addEdge acc other node dependency.uid
    | none => acc
  match isDependent acc1 other node with
  | some dependency => addEdge acc1 node other dependency.uid
  | none => acc1

/-- `TaskGraph::add_task`: insert the task node, add dependency edges against
every node (both directions, including the node itself), then report
`GraphHasCycle` if the graph became cyclic.  The insertion is not rolled back
on error: the mutated graph is returned alongside the result. -/
def addTask (g : SGraph) (t : GpuTask) : SGraph × Except Error Unit :=
  let p := addNode g (.task t)
  let g2 := (List.range p.1.nodes.length).foldl (addTaskStep p.2) p.1
  (g2, if isCyclicDirected g2 then .error .GraphHasCycle else .ok ())

/-- The tasks of the current graph that directly consume `resource`
(barrier nodes are ignored), in index order. -/
def consumersOf (g : SGraph) (resource : GpuResource) : List Nat :=
  (List.range g.nodes.length).filter (fun c =>
    match g.nodes.get? c with
    | some (.task t) => t.inputs.any (fun input => input.is_dependency_of resource)
    | _ => false)

/-- One consumer step of `create_barrier_nodes`: add a fresh barrier node
over `resource`, wire `node → barrier → consumer`, and remove the direct
`node → consumer` edge if present. -/
def addBarrierFor (node : Nat) (resource : GpuResource) (acc : SGraph) (consumer : Nat) : SGraph :=
  let p := addNode acc (.barrier (GpuBarrier.new resource))
  let acc2 := updateEdge p.1 node p.2 resource.uid
  let acc3 := updateEdge acc2 p.2 consumer resource.uid
  match findEdge acc3 node consumer with
  | some _ => { acc3 with edges := removeFirstEdge acc3.edges node consumer }
  | none => acc3

/-- The per-task body of `create_barrier_nodes`.  Note the faithful
early-exit: in the source, `if consumers.is_empty() { return; }` returns from
the whole per-node closure, so an output with no consumers also skips every
later output of the same task. -/
def processOutputs (node : Nat) : List GpuResource → SGraph → SGraph
  | [], g => g
  | resource :: rest, g =>
    let consumers := consumersOf g resource
    if consumers.isEmpty then g
    else processOutputs node rest (consumers.foldl (addBarrierFor node resource) g)

/-- `TaskGraph::create_barrier_nodes`: iterate over the original node indices
and synthesise one barrier per (producer, output resource, consumer). -/
def createBarrierNodes (g : SGraph) : SGraph :=
  (List.range g.nodes.length).foldl
    (fun acc node =>
      match acc.nodes.get? node with
      | some (.task t) => processOutputs node t.outputs acc
      | _ => acc) g

/-- `GpuTaskGraph::barriers`: the barrier nodes with their indices, in index
order. -/
def barriersOf (g : SGraph) : List (Nat × GpuBarrier) :=
  (List.range g.nodes.length).filterMap (fun i =>
    match g.nodes.get? i with
    | some (.barrier b) => some (i, b)
    | _ => none)

/-- `GpuTaskGraph::barrier_dst_resource`: follow the barrier's first outgoing
edge to its consumer task and take the consumer's first input with the
barrier's resource UID.  `none` stands for the source's `unwrap()` panics and
for the (unreachable in `merge_identical_barriers`, which calls this only on
barrier indices) `Err(NodeNotFound)` returned when the node is not a barrier. -/
def barrier_dst_resource (g : SGraph) (node : Nat) : Option GpuResource :=
  match g.nodes.get? node with
  | some (.barrier barrier) =>
    match outEdges g node with
    | [] => none
    | e :: _ =>
      match g.nodes.get? e.2.1 with
      | some (.task task) =>
        task.inputs.find? (fun input => input.uid == barrier.resource.uid)
      | _ => none
  | _ => none

/-- `GpuTaskGraph::barrier_src_resource`: the producing task's input matching
the barrier's resource UID, through the barrier's first incoming edge. -/
def barrier_src_resource (g : SGraph) (node : Nat) : Option GpuResource :=
  match g.nodes.get? node with
  | some (.barrier barrier) =>
    match inEdges g node with
    | [] => none
    | e :: _ =>
      match g.nodes.get? e.1 with
      | some (.task task) =>
        task.inputs.find? (fun input => input.uid == barrier.resource.uid)
      | _ => none
  | _ => none

/-- The mutable state threaded through `merge_identical_barriers`' two loops:
`to_remove` and `edges_to_add` are `Vec`s (push appends), `flags` is the
`HashMap<NodeIndex, (PipelineStage, vk::AccessFlags2)>` modelled as an
association list where insert prepends and lookup takes the first match. -/
structure MergeSt where
  toRemove : List Nat
  edgesToAdd : List (Nat × Nat × Uid)
  flags : List (Nat × Nat × Nat)
deriving DecidableEq, Repr

/-- `HashMap::get`. -/
def flagsGet (l : List (Nat × Nat × Nat)) (n : Nat) : Option (Nat × Nat) :=
  (l.find? (fun e => e.1 == n)).map (fun e => e.2)

/-- `HashMap::insert` (later insertions shadow earlier ones). -/
def flagsInsert (l : List (Nat × Nat × Nat)) (n : Nat) (v : Nat × Nat) :
    List (Nat × Nat × Nat) :=
  (n, v.1, v.2) :: l

/-- The inner loop of `merge_identical_barriers` for a fixed outer barrier
`node` with destination usage `dstUsage`: fold over all barriers, skipping
`node` itself and (when the outer `node` is already scheduled for removal)
everything; merge every other barrier over the same resource UID, failing
with `IllegalTaskGraph` on two different non-read destination usages. -/
def mergeInner (g : SGraph) (node : Nat) (barrier : GpuBarrier)
    (dstUsage : ResourceUsage) :
    List (Nat × GpuBarrier) → MergeSt → Option (Except Error MergeSt)
  | [], st => some (.ok st)
  | (other, otherBarrier) :: rest, st =>
    if other == node then mergeInner g node barrier dstUsage rest st
    else if st.toRemove.contains node then mergeInner g node barrier dstUsage rest st
    else
      match barrier_dst_resource g other with
      | none => none
      | some otherResource =>
        if otherBarrier.resource.uid == barrier.resource.uid then
          if !otherResource.usage.is_read && !dstUsage.is_read &&
              otherResource.usage != dstUsage then
            some (.error .IllegalTaskGraph)
          else
            match outEdges g other with
            | [] => none
            | e :: _ =>
              match flagsGet st.flags node with
              | none => none
              | some acc =>
                mergeInner g node barrier dstUsage rest
                  { toRemove := st.toRemove ++ [other]
                    edgesToAdd := st.edgesToAdd ++ [(node, e.2.1, otherResource.uid)]
                    flags := flagsInsert st.flags node
                      (otherResource.stage ||| acc.1, otherResource.usage.access ||| acc.2) }
        else mergeInner g node barrier dstUsage rest st

/-- The outer loop of `merge_identical_barriers`: for each barrier record its
own destination stage/access, then run the inner merge loop. -/
def mergeOuter (g : SGraph) :
    List (Nat × GpuBarrier) → MergeSt → Option (Except Error MergeSt)
  | [], st => some (.ok st)
  | (node, barrier) :: rest, st =>
    match barrier_dst_resource g node with
    | none => none
    | some dst =>
      let st1 := { st with flags := flagsInsert st.flags node (dst.stage, dst.usage.access) }
      match mergeInner g node barrier dst.usage (barriersOf g) st1 with
      | none => none
      | some (.error e) => some (.error e)
      | some (.ok st2) => mergeOuter g rest st2

/-- Write the accumulated destination flags into every barrier node (`none`
for the source's `unwrap()` panic when a barrier has no flags entry; after a
completed outer loop every barrier has one). -/
def writeFlags (flags : List (Nat × Nat × Nat)) : List SNode → Nat → Option (List SNode)
  | [], _ => some []
  | .task t :: rest, i => (writeFlags flags rest (i + 1)).map (fun l => .task t :: l)
  | .barrier b :: rest, i =>
    match flagsGet flags i with
    | none => none
    | some fl =>
      (writeFlags flags rest (i + 1)).map
        (fun l => .barrier { b with dst_stage := fl.1, dst_access := fl.2 } :: l)

/-- `GpuTaskGraph::merge_identical_barriers`: run the merge loops, apply the
recorded extra edges with `update_edge`, write the accumulated destination
flags into each barrier, then compact with `retain_nodes`. -/
def mergeIdenticalBarriers (g : SGraph) : Option (Except Error SGraph) :=
  match mergeOuter g (barriersOf g) ⟨[], [], []⟩ with
  | none => none
  | some (.error e) => some (.error e)
  | some (.ok st) =>
    let g1 := st.edgesToAdd.foldl (fun acc e => updateEdge acc e.1 e.2.1 e.2.2) g
    match writeFlags st.flags g1.nodes 0 with
    | none => none
    | some ns =>
      some (.ok (retainNodes { g1 with nodes := ns }
        (fun i => !(st.toRemove.contains i))))

/-- Modelled from the spec: the pass declaration handed to `add_pass`
(`crate::pass::Pass`, not under `src/`): a name, declared input and output
GPU resources, and an execute callback (opaque to the graph, omitted). -/
structure Pass where
  name : Uid
  inputs : List GpuResource
  outputs : List GpuResource
deriving DecidableEq, Repr

/-- `GpuTaskGraph`: the inner graph plus the stable index of the synthetic
source node. -/
structure GState where
  graph : SGraph
  source : Nat
deriving DecidableEq, Repr

/-- The synthetic `_source` task. -/
def sourceTask : GpuTask :=
  { identifier := "_source".toList, inputs := [], outputs := [] }

/-- `GpuTaskGraph::new`: empty graph with the `_source` task inserted; the
source index is the first node index (0). -/
def GpuTaskGraph.new : GState :=
  { graph := (addTask { nodes := [], edges := [] } sourceTask).1, source := 0 }

/-- Convert a pass into the `GpuTask` that `add_pass` inserts. -/
def taskOfPass (p : Pass) : GpuTask :=
  { identifier := p.name, inputs := p.inputs, outputs := p.outputs }

/-- The GPU resource `add_pass` pushes onto the source task's outputs for a
source-version input. -/
def injectedResource (input : GpuResource) : GpuResource :=
  { usage := .Nothing, resource := input.resource, stage := PipelineStage.TOP_OF_PIPE }

/-- `GpuTaskGraph::add_pass`: push a `Nothing`/`TOP_OF_PIPE` output onto the
source task for every source-version input of the pass, then insert the pass
as a task.  `none` models the source's `panic!` when the source node is not a
task. -/
def addPass (st : GState) (pass : Pass) : Option (GState × Except Error Unit) :=
  match st.graph.nodes.get? st.source with
  | some (.task s) =>
    let s1 := { s with outputs := s.outputs ++
      (pass.inputs.filter (fun input => input.resource.is_source)).map injectedResource }
    let g1 := { st.graph with nodes := st.graph.nodes.set st.source (.task s1) }
    let p := addTask g1 (taskOfPass pass)
    some ({ st with graph := p.1 }, p.2)
  | _ => none

/-- A sequence of `add_pass` calls from a state, keeping the mutated state of
every call (insertion is never rolled back); `none` if any call panics. -/
def addPasses (st : GState) : List Pass → Option GState
  | [] => some st
  | p :: ps =>
    match addPass st p with
    | none => none
    | some (st1, _) => addPasses st1 ps

/-- `GpuTaskGraph::build`: `create_barrier_nodes` then
`merge_identical_barriers`. -/
def GpuTaskGraph.build (st : GState) : Option (Except Error GState) :=
  match mergeIdenticalBarriers (createBarrierNodes st.graph) with
  | none => none
  | some (.error e) => some (.error e)
  | some (.ok g) => some (.ok { st with graph := g })

/-! ### Virtual-resource algebra -/

/-- `upgrade` applied `k` times. -/
def upgradeK (v : VirtualResource) : Nat → VirtualResource
  | 0 => v
  | k + 1 => (upgradeK v k).upgrade

theorem upgradeK_eq (v : VirtualResource) (k : Nat) :
    upgradeK v k = ⟨v.uid ++ List.replicate k '+'⟩ := by
  induction k with
  | zero => simp [upgradeK]
  | succ k ih =>
    simp [upgradeK, ih, VirtualResource.upgrade, List.replicate_succ',
      List.append_assoc]

theorem starts_with_nil (s : Uid) : starts_with s [] = true := by
  cases s <;> rfl

theorem starts_with_append (u t : Uid) : starts_with (u ++ t) u = true := by
  induction u with
  | nil => simpa using starts_with_nil t
  | cons c u ih => simp [starts_with, ih]

theorem starts_with_refl (u : Uid) : starts_with u u = true := by
  have h := starts_with_append u []
  simpa using h

theorem assoc_append (u t : Uid) :
    VirtualResource.are_associated ⟨u ++ t⟩ ⟨u⟩ = true := by
  unfold VirtualResource.are_associated
  have h1 : (⟨u ++ t⟩ : VirtualResource).uid.length ≥ (⟨u⟩ : VirtualResource).uid.length := by
    simp
  rw [if_pos h1, if_neg (by simp)]
  exact starts_with_append u t

/-- Claim C6: for every UID string `u` and every `k ≥ 0`, the resource
obtained by applying `upgrade` `k` times to the resource with UID `u` is
associated with the original resource, and is younger than it iff `k > 0`. -/
theorem upgradeK_associated_younger_iff (u : Uid) (k : Nat) :
    VirtualResource.are_associated (upgradeK ⟨u⟩ k) ⟨u⟩ = true ∧
    (VirtualResource.is_younger (upgradeK ⟨u⟩ k) ⟨u⟩ = true ↔ 0 < k) := by
  rw [upgradeK_eq]
  refine ⟨assoc_append u (List.replicate k '+'), ?_⟩
  unfold VirtualResource.is_younger
  rw [assoc_append u (List.replicate k '+')]
  simp

/-- Claim C7: upgrading a virtual resource any number of times never changes
its stripped name: `name (upgrade^k u) = name u`. -/
theorem upgradeK_name_stable (u : Uid) (k : Nat) :
    (upgradeK ⟨u⟩ k).name = (⟨u⟩ : VirtualResource).name := by
  rw [upgradeK_eq]
  unfold VirtualResource.name
  have hrep : (List.replicate k '+').filter (fun c => c != '+') = [] := by
    induction k with
    | zero => rfl
    | succ k ih => simp [List.replicate_succ, ih]
  simp [List.filter_append, hrep]

/-- Claim C9: comparing a virtual resource to itself: associated, and
neither older nor younger. -/
theorem self_associated_not_older_not_younger (r : VirtualResource) :
    VirtualResource.are_associated r r = true ∧
    VirtualResource.is_older r r = false ∧
    VirtualResource.is_younger r r = false := by
  have hassoc : VirtualResource.are_associated r r = true := by
    unfold VirtualResource.are_associated
    rw [if_pos (le_refl _), if_neg (lt_irrefl _)]
    exact starts_with_refl r.uid
  refine ⟨hassoc, ?_, ?_⟩
  · unfold VirtualResource.is_older
    rw [hassoc]
    simp
  · unfold VirtualResource.is_younger
    rw [hassoc]
    simp

/-- Claim C10: association is a plain string-prefix test on UIDs, so two
resources with different names can be associated: `"img"` and `"img2"`. -/
theorem assoc_of_distinct_names :
    VirtualResource.name ⟨"img".toList⟩ ≠ VirtualResource.name ⟨"img2".toList⟩ ∧
    VirtualResource.are_associated ⟨"img".toList⟩ ⟨"img2".toList⟩ = true := by
  constructor
  · decide
  · decide

/-! ### Concrete scenarios -/

/-- Fixture helper: a GPU resource from a UID string, usage and stage. -/
def mkRes (u : String) (usage : ResourceUsage) (stage : Nat) : GpuResource :=
  { usage := usage, resource := { uid := u.toList }, stage := stage }

/-- Scenario for C1: pass `P` declares two outputs, `a+` (which no pass
consumes) followed by `b+`; pass `Q` consumes `b+`. -/
def c1PassP : Pass :=
  { name := "P".toList, inputs := [],
    outputs := [mkRes "a+" .Attachment 2, mkRes "b+" .Attachment 2] }

def c1PassQ : Pass :=
  { name := "Q".toList, inputs := [mkRes "b+" .ShaderRead 4], outputs := [] }

def c1State : GState :=
  (addPasses GpuTaskGraph.new [c1PassP, c1PassQ]).getD GpuTaskGraph.new

def c1Built : GState :=
  match GpuTaskGraph.build c1State with
  | some (.ok st) => st
  | _ => GpuTaskGraph.new

/-- Claim C1 (refuted by the code, in line with the spec's stated intent):
in scenario C1 the output `b+` of task `P` (node 1) has the same UID as an
input of task `Q` (node 2), yet `build` succeeds with no barrier node at all:
`create_barrier_nodes` hits `if consumers.is_empty() { return; }` on the
earlier output `a+`, and the `return` exits the whole per-node closure
(instead of just skipping `a+` as the surrounding comment describes), so
`b+` is never examined. -/
theorem build_skips_outputs_after_unconsumed_output :
    GpuTaskGraph.build c1State = some (.ok c1Built) ∧
    c1State.graph.nodes.get? 1 = some (.task (taskOfPass c1PassP)) ∧
    c1State.graph.nodes.get? 2 = some (.task (taskOfPass c1PassQ)) ∧
    ((taskOfPass c1PassP).outputs.map GpuResource.uid).contains "b+".toList = true ∧
    ((taskOfPass c1PassQ).inputs.map GpuResource.uid).contains "b+".toList = true ∧
    barriersOf c1Built.graph = [] := by
  decide

/-- Scenario for C5 (and the write-up of C4's cross-producer behaviour):
two producers `P1`, `P2` both output `x+`; `Q1` reads it, `Q2` writes it. -/
def c5PassP1 : Pass :=
  { name := "P1".toList, inputs := [], outputs := [mkRes "x+" .Attachment 0x400] }

def c5PassP2 : Pass :=
  { name := "P2".toList, inputs := [], outputs := [mkRes "x+" .ShaderWrite 0x800] }

def c5PassQ1 : Pass :=
  { name := "Q1".toList, inputs := [mkRes "x+" .ShaderRead 0x80], outputs := [] }

def c5PassQ2 : Pass :=
  { name := "Q2".toList, inputs := [mkRes "x+" .ShaderWrite 0x800], outputs := [] }

def c5State : GState :=
  (addPasses GpuTaskGraph.new [c5PassP1, c5PassP2, c5PassQ1, c5PassQ2]).getD GpuTaskGraph.new

/-- The graph of scenario C5 after `create_barrier_nodes`, before merging. -/
def c5Pre : SGraph := createBarrierNodes c5State.graph

def c5Built : GState :=
  match GpuTaskGraph.build c5State with
  | some (.ok st) => st
  | _ => GpuTaskGraph.new

/-- Claim C5 (refuted by the code, in line with the spec's stated intent):
in scenario C5, before merging the producer `P2` (node 2) is connected to the
consumer `Q2` (node 4) through barrier node 8, but `merge_identical_barriers`
folds every barrier over UID `x+` into the first one (node 5, whose producer
is `P1`), redirecting only the outgoing edges; after `build`, `P2` has no
outgoing edge at all, so its dependency on `Q2` is lost — the merge crosses
producers instead of folding only barriers with the same producer. -/
theorem merge_drops_producer_dependency_edge :
    GpuTaskGraph.build c5State = some (.ok c5Built) ∧
    c5Pre.nodes.get? 2 = some (.task (taskOfPass c5PassP2)) ∧
    c5Pre.nodes.get? 4 = some (.task (taskOfPass c5PassQ2)) ∧
    c5Pre.nodes.get? 8 = some (.barrier (GpuBarrier.new (mkRes "x+" .ShaderWrite 0x800))) ∧
    findEdge c5Pre 2 8 = some (2, 8, "x+".toList) ∧
    findEdge c5Pre 8 4 = some (8, 4, "x+".toList) ∧
    c5Built.graph.nodes.get? 2 = some (.task (taskOfPass c5PassP2)) ∧
    outEdges c5Built.graph 2 = [] := by
  decide

/-- Scenario S4 of the spec, exactly as written: pass `A` outputs `buf` as
`ShaderWrite`, pass `B` outputs `buf` as `Attachment`; nothing consumes
`buf`. -/
def c2PassA : Pass :=
  { name := "A".toList, inputs := [], outputs := [mkRes "buf" .ShaderWrite 8] }

def c2PassB : Pass :=
  { name := "B".toList, inputs := [], outputs := [mkRes "buf" .Attachment 2] }

def c2State : GState :=
  (addPasses GpuTaskGraph.new [c2PassA, c2PassB]).getD GpuTaskGraph.new

def c2Built : GState :=
  match GpuTaskGraph.build c2State with
  | some (.ok st) => st
  | _ => GpuTaskGraph.new

/-- Claim C2 as stated is false on the code: scenario S4 has two tasks that
both output resource UID `buf` with different usages (`ShaderWrite` vs
`Attachment`), neither of which is a read, yet `build` succeeds instead of
returning `IllegalTaskGraph` — with no consumer there is no barrier, and the
merge-time check compares consumer-input usages, not producer-output usages. -/
theorem write_write_outputs_without_consumers_build_ok :
    GpuTaskGraph.build c2State = some (.ok c2Built) ∧
    c2State.graph.nodes.get? 1 = some (.task (taskOfPass c2PassA)) ∧
    c2State.graph.nodes.get? 2 = some (.task (taskOfPass c2PassB)) ∧
    (mkRes "buf" .ShaderWrite 8).uid = (mkRes "buf" .Attachment 2).uid ∧
    ResourceUsage.ShaderWrite.is_read = false ∧
    ResourceUsage.Attachment.is_read = false ∧
    ResourceUsage.ShaderWrite ≠ ResourceUsage.Attachment ∧
    GpuTaskGraph.build c2State ≠ some (.error .IllegalTaskGraph) := by
  decide

/-! ### add_pass and the synthetic source node -/

theorem addTaskStep_nodes (node : Nat) (acc : SGraph) (other : Nat) :
    (addTaskStep node acc other).nodes = acc.nodes := by
  unfold addTaskStep
  dsimp only
  split <;> split <;> rfl

theorem addTaskFold_nodes (node : Nat) (l : List Nat) (g : SGraph) :
    (l.foldl (addTaskStep node) g).nodes = g.nodes := by
  induction l generalizing g with
  | nil => rfl
  | cons x xs ih => rw [List.foldl_cons, ih, addTaskStep_nodes]

/-- `add_task` mutates the node list exactly by appending the task. -/
theorem addTask_nodes (g : SGraph) (t : GpuTask) :
    (addTask g t).1.nodes = g.nodes ++ [.task t] := by
  unfold addTask addNode
  exact addTaskFold_nodes _ _ _

/-- Claim C8: `add_pass` appends, for each input of the pass whose virtual
resource is a source version, exactly one GPU resource with that UID, usage
`Nothing` and stage `TOP_OF_PIPE` to the synthetic source task's outputs
(in input order, with no other change to the source task), and does so in the
state into which the pass task is then inserted; inputs that are not source
versions contribute nothing. -/
theorem add_pass_source_injection (st : GState) (p : Pass) (s : GpuTask)
    (h : st.graph.nodes.get? st.source = some (.task s)) :
    ∃ st1 r, addPass st p = some (st1, r) ∧
      st1.graph.nodes.get? st.source = some (.task { s with outputs := s.outputs ++
        (p.inputs.filter (fun input => input.resource.is_source)).map injectedResource }) ∧
      st1.graph.nodes.get? st.graph.nodes.length = some (.task (taskOfPass p)) ∧
      st1.graph.nodes.length = st.graph.nodes.length + 1 := by
  have hlt : st.source < st.graph.nodes.length := (List.get?_eq_some.mp h).1
  unfold addPass
  rw [h]
  refine ⟨_, _, rfl, ?_, ?_, ?_⟩
  · dsimp only
    rw [addTask_nodes]
    rw [List.get?_append (by simpa using hlt)]
    exact List.get?_set_eq_of_lt _ (by simpa using hlt)
  · dsimp only
    rw [addTask_nodes]
    have hlen : (st.graph.nodes.set st.source
        (.task { s with outputs := s.outputs ++
          (p.inputs.filter (fun input => input.resource.is_source)).map injectedResource })).length
        = st.graph.nodes.length := List.length_set _ _ _
    rw [← hlen]
    exact List.get?_concat_length _ _
  · dsimp only
    rw [addTask_nodes]
    simp

/-- Fixture pass for the C8 witness: one source-version input `img`, one
non-source input `tex+`. -/
def c8Pass : Pass :=
  { name := "C".toList,
    inputs := [mkRes "img" .ShaderRead 4, mkRes "tex+" .ShaderRead 4],
    outputs := [] }

theorem add_pass_source_injection_witness :
    GpuTaskGraph.new.graph.nodes.get? GpuTaskGraph.new.source = some (.task sourceTask) ∧
    (∃ st1 r, addPass GpuTaskGraph.new c8Pass = some (st1, r) ∧
      st1.graph.nodes.get? GpuTaskGraph.new.source = some (.task { sourceTask with
        outputs := sourceTask.outputs ++
          (c8Pass.inputs.filter (fun input => input.resource.is_source)).map injectedResource }) ∧
      st1.graph.nodes.get? GpuTaskGraph.new.graph.nodes.length = some (.task (taskOfPass c8Pass)) ∧
      st1.graph.nodes.length = GpuTaskGraph.new.graph.nodes.length + 1) :=
  ⟨by decide, add_pass_source_injection GpuTaskGraph.new c8Pass sourceTask (by decide)⟩

/-! ### Reachability and cycles -/

/-- The step relation of a successor function. -/
def stepRel (succ : Nat → List Nat) (a b : Nat) : Prop := b ∈ succ a

theorem reachF_self (succ : Nat → List Nat) (f a : Nat) :
    reachF succ f a a = true := by
  cases f <;> simp [reachF]

theorem reachF_mono (succ : Nat → List Nat) :
    ∀ {f f' a b : Nat}, f ≤ f' → reachF succ f a b = true → reachF succ f' a b = true := by
  intro f
  induction f with
  | zero =>
    intro f' a b _ h
    have hab : a = b := by simpa [reachF] using h
    subst hab
    exact reachF_self succ f' a
  | succ f ih =>
    intro f' a b hf h
    obtain ⟨f'', rfl⟩ : ∃ f'', f' = f'' + 1 := ⟨f' - 1, by omega⟩
    simp only [reachF, Bool.or_eq_true, List.any_eq_true] at h ⊢
    rcases h with h | ⟨c, hc, hr⟩
    · exact Or.inl h
    · exact Or.inr ⟨c, hc, ih (by omega) hr⟩

theorem reachF_sound (succ : Nat → List Nat) :
    ∀ {f a b : Nat}, reachF succ f a b = true →
      Relation.ReflTransGen (stepRel succ) a b := by
  intro f
  induction f with
  | zero =>
    intro a b h
    have hab : a = b := by simpa [reachF] using h
    subst hab
    exact Relation.ReflTransGen.refl
  | succ f ih =>
    intro a b h
    simp only [reachF, Bool.or_eq_true, List.any_eq_true] at h
    rcases h with h | ⟨c, hc, hr⟩
    · have hab : a = b := by simpa using h
      subst hab
      exact Relation.ReflTransGen.refl
    · exact Relation.ReflTransGen.head hc (ih hr)

theorem chain_reachF (succ : Nat → List Nat) :
    ∀ (l : List Nat) (a b : Nat), List.Chain (stepRel succ) a l →
      (a :: l).getLast? = some b → reachF succ l.length a b = true := by
  intro l
  induction l with
  | nil =>
    intro a b _ hl
    have hb : a = b := by simpa using hl
    subst hb
    exact reachF_self succ 0 a
  | cons c l ih =>
    intro a b hc hl
    rcases List.chain_cons.mp hc with ⟨hac, hcl⟩
    have hl' : (c :: l).getLast? = some b := by
      simpa [List.getLast?_cons_cons] using hl
    simp only [List.length_cons, reachF, Bool.or_eq_true, List.any_eq_true]
    exact Or.inr ⟨c, hac, ih c b hcl hl'⟩

/-- Every element of a chain list is the target of some step. -/
theorem chain_mem_target (R : Nat → Nat → Prop) :
    ∀ (l : List Nat) (a : Nat), List.Chain R a l → ∀ x ∈ l, ∃ y, R y x := by
  intro l
  induction l with
  | nil => intro a _ x hx; cases hx
  | cons c l ih =>
    intro a hc x hx
    rcases List.chain_cons.mp hc with ⟨hac, hcl⟩
    rcases List.mem_cons.mp hx with rfl | hx
    · exact ⟨a, hac⟩
    · exact ih c hcl x hx

theorem nodup_length_le (l : List Nat) (n : Nat) (hb : ∀ x ∈ l, x < n)
    (hnd : l.Nodup) : l.length ≤ n := by
  have h1 : l.toFinset.card = l.length := List.toFinset_card_of_nodup hnd
  have h2 : l.toFinset ⊆ Finset.range n := by
    intro x hx
    simp only [List.mem_toFinset] at hx
    exact Finset.mem_range.mpr (hb x hx)
  calc l.length = l.toFinset.card := h1.symm
    _ ≤ (Finset.range n).card := Finset.card_le_card h2
    _ = n := Finset.card_range n

theorem not_nodup_split {α : Type} : ∀ (l : List α), ¬ l.Nodup →
    ∃ (p : List α) (x : α) (m q : List α), l = p ++ x :: m ++ x :: q := by
  intro l
  induction l with
  | nil => intro h; exact absurd List.nodup_nil h
  | cons y t ih =>
    intro h
    by_cases hy : y ∈ t
    · obtain ⟨s, u, rfl⟩ := List.append_of_mem hy
      exact ⟨[], y, s, u, rfl⟩
    · have ht : ¬ t.Nodup := by
        intro hnd
        exact h (List.nodup_cons.mpr ⟨hy, hnd⟩)
      obtain ⟨p, x, m, q, rfl⟩ := ih ht
      exact ⟨y :: p, x, m, q, rfl⟩

theorem chain_shorten (R : Nat → Nat → Prop) (n : Nat) :
    ∀ (k : Nat) (l : List Nat) (a b : Nat), l.length ≤ k →
      List.Chain R a l → (a :: l).getLast? = some b → (∀ x ∈ a :: l, x < n) →
      ∃ l', List.Chain R a l' ∧ (a :: l').getLast? = some b ∧ l'.length ≤ n := by
  intro k
  induction k with
  | zero =>
    intro l a b hk hc hl _
    have : l = [] := List.length_eq_zero.mp (Nat.le_zero.mp hk)
    subst this
    exact ⟨[], hc, hl, Nat.zero_le n⟩
  | succ k ih =>
    intro l a b hk hc hl hbound
    by_cases hlen : l.length ≤ n
    · exact ⟨l, hc, hl, hlen⟩
    · have hfull : ¬ (a :: l).Nodup := by
        intro hnd
        have := nodup_length_le (a :: l) n hbound hnd
        simp only [List.length_cons] at this
        omega
      obtain ⟨p, x, m, q, hsplit⟩ := not_nodup_split (a :: l) hfull
      cases p with
      | nil =>
        simp only [List.nil_append, List.cons_append] at hsplit
        have hax : a = x := List.head_eq_of_cons_eq hsplit
        have hltail : l = m ++ x :: q := by
          simpa using List.tail_eq_of_cons_eq hsplit
        rw [hltail] at hc hl hk
        have hq : List.Chain R a q := by
          have := (List.chain_split.mp hc).2
          rwa [← hax] at this
        have hlast : (a :: q).getLast? = some b := by
          have e1 : a :: (m ++ x :: q) = (a :: m) ++ (x :: q) := by simp
          rw [e1, List.getLast?_append_of_ne_nil _ (by simp)] at hl
          rw [hax]
          exact hl
        have hqlen : q.length ≤ k := by
          simp only [List.length_append, List.length_cons] at hk
          omega
        exact ih q a b hqlen hq hlast (by
          intro y hy
          apply hbound
          rcases List.mem_cons.mp hy with rfl | hy
          · exact List.mem_cons_self _ _
          · rw [hltail]
            simp [hy])
      | cons a0 p' =>
        have hltail : l = p' ++ x :: (m ++ x :: q) := by
          have h2 := List.tail_eq_of_cons_eq hsplit
          simpa using h2
        rw [hltail] at hc hl hk
        have hc1 := List.chain_split.mp hc
        have hc2 : List.Chain R x q := (List.chain_split.mp hc1.2).2
        have hc' : List.Chain R a (p' ++ x :: q) :=
          List.chain_split.mpr ⟨hc1.1, hc2⟩
        have hlast : (a :: (p' ++ x :: q)).getLast? = some b := by
          have e1 : a :: (p' ++ x :: (m ++ x :: q)) = (a :: p') ++ (x :: (m ++ x :: q)) := by
            simp
          have e2 : (x : Nat) :: (m ++ x :: q) = (x :: m) ++ (x :: q) := by simp
          rw [e1, List.getLast?_append_of_ne_nil _ (by simp), e2,
            List.getLast?_append_of_ne_nil _ (by simp)] at hl
          have e3 : a :: (p' ++ x :: q) = (a :: p') ++ (x :: q) := by simp
          rw [e3, List.getLast?_append_of_ne_nil _ (by simp)]
          exact hl
        have hlen' : (p' ++ x :: q).length ≤ k := by
          simp only [List.length_append, List.length_cons] at hk ⊢
          omega
        refine ih (p' ++ x :: q) a b hlen' hc' hlast ?_
        intro y hy
        apply hbound
        rcases List.mem_cons.mp hy with rfl | hy
        · exact List.mem_cons_self _ _
        · rw [hltail]
          simp only [List.mem_cons, List.mem_append] at hy ⊢
          rcases hy with hy | rfl | hy
          · simp [hy]
          · simp
          · simp [hy]

/-- Completeness of the fuelled reachability test: if `b` is reachable from
`a` and every step stays below `n`, then `reachF` with fuel `n` finds it. -/
theorem rtg_reachF (succ : Nat → List Nat) (n : Nat)
    (hvalid : ∀ a b, stepRel succ a b → a < n ∧ b < n) {a b : Nat}
    (h : Relation.ReflTransGen (stepRel succ) a b) (ha : a < n) :
    reachF succ n a b = true := by
  obtain ⟨l, hc, hl⟩ := List.exists_chain_of_relationReflTransGen h
  have hl' : (a :: l).getLast? = some b := by
    rw [List.getLast?_eq_getLast _ (List.cons_ne_nil _ _)]
    exact congrArg some hl
  have hbound : ∀ x ∈ a :: l, x < n := by
    intro x hx
    rcases List.mem_cons.mp hx with rfl | hx
    · exact ha
    · obtain ⟨y, hy⟩ := chain_mem_target (stepRel succ) l a hc x hx
      exact (hvalid y x hy).2
  obtain ⟨l', hc', hl'', hlen⟩ := chain_shorten (stepRel succ) n l.length l a b le_rfl hc hl' hbound
  exact reachF_mono succ hlen (chain_reachF succ l' a b hc' hl'')

/-- Correctness of the generic cycle test: for a successor function whose
steps stay below `n`, `cyclicF` is true exactly when some node reaches itself
in at least one step. -/
theorem cyclicF_iff (succ : Nat → List Nat) (n : Nat)
    (hvalid : ∀ a b, stepRel succ a b → a < n ∧ b < n) :
    cyclicF succ n = true ↔ ∃ a, Relation.TransGen (stepRel succ) a a := by
  constructor
  · intro h
    simp only [cyclicF, List.any_eq_true, List.mem_range] at h
    obtain ⟨a, _, c, hc, hr⟩ := h
    exact ⟨a, Relation.TransGen.head' hc (reachF_sound succ hr)⟩
  · rintro ⟨a, h⟩
    obtain ⟨c, hstep, hrtg⟩ := Relation.TransGen.head'_iff.mp h
    have ha : a < n := (hvalid a c hstep).1
    have hc : c < n := (hvalid a c hstep).2
    have hr : reachF succ n c a = true := rtg_reachF succ n hvalid hrtg hc
    simp only [cyclicF, List.any_eq_true, List.mem_range]
    exact ⟨a, ha, c, hstep, hr⟩

/-! ### The dependency relation induced by declared pass UIDs -/

/-- Edge presence between two node indices. -/
def hasEdge (g : SGraph) (a b : Nat) : Prop := ∃ w, (a, b, w) ∈ g.edges

/-- The task stored at index `i`, if any. -/
def taskAt (g : SGraph) (i : Nat) : Option GpuTask :=
  match g.nodes.get? i with
  | some (.task t) => some t
  | _ => none

/-- Does `child` consume an output of `parent` (by exact UID equality)?
This is the condition under which `is_dependent` returns a resource. -/
def dependsB (child parent : GpuTask) : Bool :=
  child.inputs.any (fun input => parent.outputs.any (fun output => input.is_dependency_of output))

/-- Does the pass declare at least one source-version input? -/
def hasSourceInputB (p : Pass) : Bool :=
  p.inputs.any (fun input => input.resource.is_source)

/-- The outputs accumulated on the synthetic source task after a sequence of
`add_pass` calls: one injected resource per source-version input, in order. -/
def injectedOutputs : List Pass → List GpuResource
  | [] => []
  | p :: ps =>
    (p.inputs.filter (fun input => input.resource.is_source)).map injectedResource ++
      injectedOutputs ps

/-- The synthetic source task after a sequence of `add_pass` calls. -/
def sourceAfter (ps : List Pass) : GpuTask :=
  { sourceTask with outputs := injectedOutputs ps }

/-- Producer→consumer dependency induced by the declared UIDs: pass `j`
consumes an output of pass `i`. -/
def passDep (ps : List Pass) (i j : Nat) : Prop :=
  match ps.get? i, ps.get? j with
  | some pa, some pb => dependsB (taskOfPass pb) (taskOfPass pa) = true
  | _, _ => False

/-- The declared resource UIDs of the passes induce a cycle in the
producer→consumer relation. -/
def PassesCyclic (ps : List Pass) : Prop :=
  ∃ i, Relation.TransGen (passDep ps) i i

/-- The edges of the graph built by `add_pass` over a pass list: the source
node feeds every pass with a source-version input, and pass `i` feeds pass
`j` whenever `j` consumes an output UID of `i` (node `k + 1` is pass `k`). -/
def edgeSpec (ps : List Pass) (a b : Nat) : Prop :=
  (a = 0 ∧ ∃ j q, b = j + 1 ∧ ps.get? j = some q ∧ hasSourceInputB q = true) ∨
  (∃ i j, a = i + 1 ∧ b = j + 1 ∧ passDep ps i j)

theorem stepRel_succs (g : SGraph) (a b : Nat) :
    stepRel (succs g) a b ↔ hasEdge g a b := by
  simp only [stepRel, succs, outEdges, List.mem_map, List.mem_filter, hasEdge]
  constructor
  · rintro ⟨e, ⟨he, hsrc⟩, htgt⟩
    refine ⟨e.2.2, ?_⟩
    have h1 : e.1 = a := by simpa using hsrc
    have : e = (a, b, e.2.2) := by
      rcases e with ⟨x, y, w⟩
      simp only at h1 htgt
      simp [h1, htgt]
    rwa [this] at he
  · rintro ⟨w, hw⟩
    exact ⟨(a, b, w), ⟨hw, by simp⟩, rfl⟩

theorem hasEdge_addEdge (g : SGraph) (a' b' a b : Nat) (w : Uid) :
    hasEdge (addEdge g a' b' w) a b ↔ hasEdge g a b ∨ (a = a' ∧ b = b') := by
  simp only [hasEdge, addEdge, List.mem_cons, Prod.mk.injEq]
  constructor
  · rintro ⟨w', h | h⟩
    · exact Or.inr ⟨h.1, h.2.1⟩
    · exact Or.inl ⟨w', h⟩
  · rintro (⟨w', h⟩ | ⟨rfl, rfl⟩)
    · exact ⟨w', Or.inr h⟩
    · exact ⟨w, Or.inl ⟨rfl, rfl, rfl⟩⟩

theorem isDependent_congr {g1 g2 : SGraph} (h : g1.nodes = g2.nodes) :
    ∀ c p, isDependent g1 c p = isDependent g2 c p := by
  intro c p
  unfold isDependent
  rw [h]

/-- `is_dependent` finds a resource exactly when both nodes are tasks and the
child consumes some output of the parent. -/
theorem isDependent_ne_none_iff (g : SGraph) (c p : Nat) :
    isDependent g c p ≠ none ↔
      ∃ tc tp, taskAt g c = some tc ∧ taskAt g p = some tp ∧ dependsB tc tp = true := by
  unfold isDependent taskAt
  cases hc : g.nodes.get? c with
  | none => simp
  | some nc =>
    cases nc with
    | barrier b => simp
    | task tc =>
      cases hp : g.nodes.get? p with
      | none => simp
      | some np =>
        cases np with
        | barrier b => simp
        | task tp =>
          rw [Option.ne_none_iff_isSome, List.find?_isSome]
          constructor
          · intro h
            refine ⟨tc, tp, rfl, rfl, ?_⟩
            simpa [dependsB, List.any_eq_true] using h
          · rintro ⟨tc', tp', h1, h2, h3⟩
            obtain rfl : tc = tc' := by simpa using h1
            obtain rfl : tp = tp' := by simpa using h2
            simpa [dependsB, List.any_eq_true] using h3

theorem addTaskStep_hasEdge (node : Nat) (g : SGraph) (x : Nat) (a b : Nat) :
    hasEdge (addTaskStep node g x) a b ↔ hasEdge g a b ∨
      (a = x ∧ b = node ∧ isDependent g node x ≠ none) ∨
      (a = node ∧ b = x ∧ isDependent g x node ≠ none) := by
  unfold addTaskStep
  dsimp only
  cases h1 : isDependent g node x with
  | none =>
    cases h2 : isDependent g x node with
    | none => simp [h1, h2]
    | some d => simp [hasEdge_addEdge, h1, h2]
  | some d =>
    have hcongr : ∀ u v, isDependent (addEdge g x node d.uid) u v = isDependent g u v :=
      isDependent_congr rfl
    rw [hcongr]
    cases h2 : isDependent g x node with
    | none => simp [hasEdge_addEdge, h1, h2]
    | some e =>
      simp [hasEdge_addEdge, h1, h2]
      tauto

theorem addTaskFold_hasEdge (node : Nat) (l : List Nat) (g : SGraph) (a b : Nat) :
    hasEdge (l.foldl (addTaskStep node) g) a b ↔ hasEdge g a b ∨
      (∃ x ∈ l, a = x ∧ b = node ∧ isDependent g node x ≠ none) ∨
      (∃ x ∈ l, a = node ∧ b = x ∧ isDependent g x node ≠ none) := by
  induction l generalizing g with
  | nil => simp
  | cons y ys ih =>
    rw [List.foldl_cons, ih]
    have hD : ∀ u v, isDependent (addTaskStep node g y) u v = isDependent g u v :=
      isDependent_congr (addTaskStep_nodes node g y)
    simp only [hD, List.mem_cons]
    rw [addTaskStep_hasEdge]
    constructor
    · rintro ((h | ⟨h1, h2, hd⟩ | ⟨h1, h2, hd⟩) | ⟨x, hx, h1, h2, hd⟩ |
        ⟨x, hx, h1, h2, hd⟩)
      · exact Or.inl h
      · exact Or.inr (Or.inl ⟨y, Or.inl rfl, h1, h2, hd⟩)
      · exact Or.inr (Or.inr ⟨y, Or.inl rfl, h1, h2, hd⟩)
      · exact Or.inr (Or.inl ⟨x, Or.inr hx, h1, h2, hd⟩)
      · exact Or.inr (Or.inr ⟨x, Or.inr hx, h1, h2, hd⟩)
    · rintro (h | ⟨x, hx | hx, h1, h2, hd⟩ | ⟨x, hx | hx, h1, h2, hd⟩)
      · exact Or.inl (Or.inl h)
      · subst hx
        exact Or.inl (Or.inr (Or.inl ⟨h1, h2, hd⟩))
      · exact Or.inr (Or.inl ⟨x, hx, h1, h2, hd⟩)
      · subst hx
        exact Or.inl (Or.inr (Or.inr ⟨h1, h2, hd⟩))
      · exact Or.inr (Or.inr ⟨x, hx, h1, h2, hd⟩)

/-- The graph with the new task node appended (before `add_task`'s edge
loop). -/
def withTask (g : SGraph) (t : GpuTask) : SGraph := (addNode g (.task t)).1

/-- The edges after `add_task` are the old edges plus the dependency edges of
the new node against every node index (itself included). -/
theorem addTask_hasEdge (g : SGraph) (t : GpuTask) (a b : Nat) :
    hasEdge (addTask g t).1 a b ↔ hasEdge g a b ∨
      (∃ x, x < g.nodes.length + 1 ∧ a = x ∧ b = g.nodes.length ∧
        isDependent (withTask g t) g.nodes.length x ≠ none) ∨
      (∃ x, x < g.nodes.length + 1 ∧ a = g.nodes.length ∧ b = x ∧
        isDependent (withTask g t) x g.nodes.length ≠ none) := by
  show hasEdge ((List.range (withTask g t).nodes.length).foldl
    (addTaskStep g.nodes.length) (withTask g t)) a b ↔ _
  rw [addTaskFold_hasEdge]
  have hlen : (withTask g t).nodes.length = g.nodes.length + 1 := by
    simp [withTask, addNode]
  have hbase : ∀ a b, hasEdge (withTask g t) a b ↔ hasEdge g a b := by
    intro a b
    exact Iff.rfl
  rw [hlen, hbase]
  simp only [List.mem_range]

theorem injectedOutputs_append (ps : List Pass) (p : Pass) :
    injectedOutputs (ps ++ [p]) = injectedOutputs ps ++
      (p.inputs.filter (fun input => input.resource.is_source)).map injectedResource := by
  induction ps with
  | nil => simp [injectedOutputs]
  | cons q qs ih => simp [injectedOutputs, ih]

theorem mem_injectedOutputs_source (l : List Pass) :
    ∀ out ∈ injectedOutputs l, out.resource.is_source = true := by
  induction l with
  | nil => intro out h; cases h
  | cons q qs ih =>
    intro out h
    rcases List.mem_append.mp h with h | h
    · obtain ⟨inp, hinp, rfl⟩ := List.mem_map.mp h
      exact (List.mem_filter.mp hinp).2
    · exact ih out h

theorem injected_mem (l : List Pass) (p : Pass) (inp : GpuResource)
    (hp : p ∈ l) (hinp : inp ∈ p.inputs) (hsrc : inp.resource.is_source = true) :
    injectedResource inp ∈ injectedOutputs l := by
  induction l with
  | nil => cases hp
  | cons q qs ih =>
    rcases List.mem_cons.mp hp with rfl | hp
    · apply List.mem_append_left
      exact List.mem_map_of_mem _ (List.mem_filter.mpr ⟨hinp, hsrc⟩)
    · exact List.mem_append_right _ (ih hp)

/-- The new pass depends on the updated source task exactly when it declares
a source-version input: its own source inputs were just injected, and every
injected output has a source-version UID, which no non-source input can
match. -/
theorem dependsB_source (p : Pass) (l : List Pass) (hmem : p ∈ l) :
    dependsB (taskOfPass p) (sourceAfter l) = hasSourceInputB p := by
  cases hs : hasSourceInputB p with
  | true =>
    obtain ⟨inp, hinp, hsrc⟩ := by
      simpa [hasSourceInputB, List.any_eq_true] using hs
    have hmem2 : injectedResource inp ∈ (sourceAfter l).outputs :=
      injected_mem l p inp hmem hinp hsrc
    simp only [dependsB, List.any_eq_true]
    refine ⟨inp, hinp, ⟨injectedResource inp, hmem2, ?_⟩⟩
    simp [GpuResource.is_dependency_of, injectedResource, GpuResource.uid]
  | false =>
    rw [Bool.eq_false_iff]
    intro hcon
    simp only [dependsB, List.any_eq_true] at hcon
    obtain ⟨inp, hinp, out, hout, heq⟩ := hcon
    have hout_src : out.resource.is_source = true :=
      mem_injectedOutputs_source l out hout
    have huid : inp.resource.uid = out.resource.uid := by
      simpa [GpuResource.is_dependency_of, GpuResource.uid] using heq
    have hinp_src : inp.resource.is_source = true := by
      unfold VirtualResource.is_source at hout_src ⊢
      rw [huid]
      exact hout_src
    have : hasSourceInputB p = true := by
      simp only [hasSourceInputB, List.any_eq_true]
      exact ⟨inp, hinp, hinp_src⟩
    rw [hs] at this
    cases this

theorem addPasses_append_eq (st : GState) (ps : List Pass) (p : Pass) :
    addPasses st (ps ++ [p]) =
      match addPasses st ps with
      | none => none
      | some st1 =>
        match addPass st1 p with
        | none => none
        | some x => some x.1 := by
  induction ps generalizing st with
  | nil =>
    show addPasses st [p] = _
    cases h : addPass st p with
    | none => simp [addPasses, h]
    | some x =>
      cases x with
      | mk st1 r => simp [addPasses, h]
  | cons q qs ih =>
    show addPasses st (q :: (qs ++ [p])) = _
    cases h : addPass st q with
    | none => simp [addPasses, h]
    | some x =>
      cases x with
      | mk st1 r =>
        simp only [addPasses, h]
        exact ih st1

theorem taskAt_zero (g : SGraph) (s0 : GpuTask) (rest : List SNode)
    (h : g.nodes = .task s0 :: rest) : taskAt g 0 = some s0 := by
  unfold taskAt
  rw [h]
  rfl

theorem taskAt_succ (g : SGraph) (s0 : GpuTask) (qs : List Pass)
    (h : g.nodes = .task s0 :: qs.map (fun q => .task (taskOfPass q))) (i : Nat) :
    taskAt g (i + 1) = (qs.get? i).map taskOfPass := by
  unfold taskAt
  rw [h, List.get?_cons_succ, List.get?_map]
  cases qs.get? i <;> rfl

theorem passDep_iff (qs : List Pass) (i j : Nat) :
    passDep qs i j ↔ ∃ pa pb, qs.get? i = some pa ∧ qs.get? j = some pb ∧
      dependsB (taskOfPass pb) (taskOfPass pa) = true := by
  unfold passDep
  cases hi : qs.get? i with
  | none => simp
  | some pa =>
    cases hj : qs.get? j with
    | none => simp
    | some pb =>
      simp only [Option.some.injEq]
      constructor
      · intro h
        exact ⟨pa, pb, rfl, rfl, h⟩
      · rintro ⟨pa', pb', h1, h2, h3⟩
        obtain rfl : pa = pa' := by simpa using h1
        obtain rfl : pb = pb' := by simpa using h2
        exact h3

theorem passDep_lt (qs : List Pass) (i j : Nat) (h : passDep qs i j) :
    i < qs.length ∧ j < qs.length := by
  rw [passDep_iff] at h
  obtain ⟨pa, pb, h1, h2, _⟩ := h
  exact ⟨(List.get?_eq_some.mp h1).1, (List.get?_eq_some.mp h2).1⟩

theorem passDep_append_lt (ps : List Pass) (p : Pass) (i j : Nat)
    (hi : i < ps.length) (hj : j < ps.length) :
    passDep (ps ++ [p]) i j ↔ passDep ps i j := by
  unfold passDep
  rw [List.get?_append hi, List.get?_append hj]

theorem isDependent_child_iff (W : SGraph) (s0 : GpuTask) (qs : List Pass)
    (hW : W.nodes = .task s0 :: qs.map (fun q => .task (taskOfPass q)))
    (c : Nat) (pc : Pass) (hc : qs.get? c = some pc) :
    ∀ x, (isDependent W (c + 1) x ≠ none) ↔
      ((x = 0 ∧ dependsB (taskOfPass pc) s0 = true) ∨
        (∃ i, x = i + 1 ∧ passDep qs i c)) := by
  have hTAc : taskAt W (c + 1) = some (taskOfPass pc) := by
    rw [taskAt_succ W s0 qs hW, hc]
    rfl
  intro x
  rw [isDependent_ne_none_iff]
  cases x with
  | zero =>
    constructor
    · rintro ⟨tc, tp, h1, h2, h3⟩
      rw [hTAc] at h1
      rw [taskAt_zero W s0 _ hW] at h2
      obtain rfl : tc = taskOfPass pc := by simpa using h1.symm
      obtain rfl : tp = s0 := by simpa using h2.symm
      exact Or.inl ⟨rfl, h3⟩
    · rintro (⟨_, hdep⟩ | ⟨i, hi, _⟩)
      · exact ⟨taskOfPass pc, s0, hTAc, taskAt_zero W s0 _ hW, hdep⟩
      · exact absurd hi (by omega)
  | succ i =>
    constructor
    · rintro ⟨tc, tp, h1, h2, h3⟩
      rw [hTAc] at h1
      rw [taskAt_succ W s0 qs hW i] at h2
      cases hq : qs.get? i with
      | none => rw [hq] at h2; cases h2
      | some pa =>
        rw [hq] at h2
        obtain rfl : tp = taskOfPass pa := by simpa using h2.symm
        obtain rfl : tc = taskOfPass pc := by simpa using h1.symm
        refine Or.inr ⟨i, rfl, ?_⟩
        rw [passDep_iff]
        exact ⟨pa, pc, hq, hc, h3⟩
    · rintro (⟨h0, _⟩ | ⟨j, hj, hdep⟩)
      · exact absurd h0 (by omega)
      · have hji : j = i := by omega
        rw [hji, passDep_iff] at hdep
        obtain ⟨pa, pb, h1, h2, h3⟩ := hdep
        have hpb : pb = pc := by rw [hc] at h2; simpa using h2.symm
        rw [hpb] at h3
        refine ⟨taskOfPass pc, taskOfPass pa, hTAc, ?_, h3⟩
        rw [taskAt_succ W s0 qs hW i, h1]
        rfl

theorem isDependent_parent_iff (W : SGraph) (s0 : GpuTask) (qs : List Pass)
    (hW : W.nodes = .task s0 :: qs.map (fun q => .task (taskOfPass q)))
    (hs0 : s0.inputs = [])
    (c : Nat) (pc : Pass) (hc : qs.get? c = some pc) :
    ∀ x, (isDependent W x (c + 1) ≠ none) ↔ (∃ j, x = j + 1 ∧ passDep qs c j) := by
  have hTAc : taskAt W (c + 1) = some (taskOfPass pc) := by
    rw [taskAt_succ W s0 qs hW, hc]
    rfl
  intro x
  rw [isDependent_ne_none_iff]
  cases x with
  | zero =>
    constructor
    · rintro ⟨tc, tp, h1, h2, h3⟩
      rw [taskAt_zero W s0 _ hW] at h1
      obtain rfl : tc = s0 := by simpa using h1.symm
      rw [dependsB, hs0] at h3
      cases h3
    · rintro ⟨j, hj, _⟩
      exact absurd hj (by omega)
  | succ j =>
    constructor
    · rintro ⟨tc, tp, h1, h2, h3⟩
      rw [taskAt_succ W s0 qs hW j] at h1
      cases hq : qs.get? j with
      | none => rw [hq] at h1; cases h1
      | some pb =>
        rw [hq] at h1
        obtain rfl : tc = taskOfPass pb := by simpa using h1.symm
        rw [hTAc] at h2
        obtain rfl : tp = taskOfPass pc := by simpa using h2.symm
        refine ⟨j, rfl, ?_⟩
        rw [passDep_iff]
        exact ⟨pc, pb, hc, hq, h3⟩
    · rintro ⟨j', hj', hdep⟩
      have hjj : j' = j := by omega
      rw [hjj, passDep_iff] at hdep
      obtain ⟨pa, pb, h1, h2, h3⟩ := hdep
      have hpa : pa = pc := by rw [hc] at h1; simpa using h1.symm
      rw [hpa] at h3
      refine ⟨taskOfPass pb, taskOfPass pc, ?_, hTAc, h3⟩
      rw [taskAt_succ W s0 qs hW j, h2]
      rfl

/-- Structure of the graph built by a sequence of `add_pass` calls from a
fresh graph: node 0 is the synthetic source with all injected outputs, node
`k + 1` is pass `k`, and the edges are exactly the UID-induced dependencies
of `edgeSpec`. -/
theorem addPasses_spec (ps : List Pass) :
    ∃ st, addPasses GpuTaskGraph.new ps = some st ∧ st.source = 0 ∧
      st.graph.nodes = .task (sourceAfter ps) :: ps.map (fun q => .task (taskOfPass q)) ∧
      ∀ a b, hasEdge st.graph a b ↔ edgeSpec ps a b := by
  induction ps using List.reverseRecOn with
  | nil =>
    refine ⟨GpuTaskGraph.new, rfl, rfl, by decide, ?_⟩
    intro a b
    have hedges : GpuTaskGraph.new.graph.edges = [] := by decide
    constructor
    · rintro ⟨w, hw⟩
      rw [hedges] at hw
      cases hw
    · rintro (⟨_, j, q, _, hget, _⟩ | ⟨i, j, _, _, hdep⟩)
      · simp at hget
      · have := passDep_lt [] i j hdep
        simp at this
  | append_singleton ps p ih =>
    obtain ⟨st, hadd, hsrc, hnodes, hedges⟩ := ih
    have hs1 : { sourceAfter ps with outputs := (sourceAfter ps).outputs ++
        (p.inputs.filter (fun input => input.resource.is_source)).map injectedResource } =
        sourceAfter (ps ++ [p]) := by
      simp [sourceAfter, injectedOutputs_append]
    have hget0 : st.graph.nodes.get? st.source = some (.task (sourceAfter ps)) := by
      rw [hsrc, hnodes]
      rfl
    have haddp : addPass st p = some
        ({ st with graph := (addTask { st.graph with nodes := (st.graph.nodes.set st.source (.task (sourceAfter (ps ++ [p])))) } (taskOfPass p)).1 },
          (addTask { st.graph with nodes := (st.graph.nodes.set st.source (.task (sourceAfter (ps ++ [p])))) } (taskOfPass p)).2) := by
      unfold addPass
      rw [hget0]
      dsimp only
      rw [hs1]
    have hG1nodes : st.graph.nodes.set st.source (.task (sourceAfter (ps ++ [p]))) =
        .task (sourceAfter (ps ++ [p])) :: ps.map (fun q => .task (taskOfPass q)) := by
      rw [hsrc, hnodes]
      rfl
    refine ⟨{ st with graph := (addTask { st.graph with nodes := (st.graph.nodes.set st.source (.task (sourceAfter (ps ++ [p])))) } (taskOfPass p)).1 }, ?_, hsrc, ?_, ?_⟩
    · rw [addPasses_append_eq, hadd]
      dsimp only
      rw [haddp]
    · show (addTask { st.graph with nodes := (st.graph.nodes.set st.source (.task (sourceAfter (ps ++ [p])))) } (taskOfPass p)).1.nodes = _
      rw [addTask_nodes]
      show st.graph.nodes.set st.source (.task (sourceAfter (ps ++ [p]))) ++ _ = _
      rw [hG1nodes]
      simp
    · intro a b
      show hasEdge (addTask { st.graph with nodes := (st.graph.nodes.set st.source (.task (sourceAfter (ps ++ [p])))) } (taskOfPass p)).1 a b ↔ _
      rw [addTask_hasEdge]
      have hL : ({ st.graph with nodes := (st.graph.nodes.set st.source (.task (sourceAfter (ps ++ [p])))) } : SGraph).nodes.length = ps.length + 1 := by
        show (st.graph.nodes.set st.source (.task (sourceAfter (ps ++ [p])))).length = _
        rw [hG1nodes]
        simp
      rw [hL]
      have hW : (withTask { st.graph with nodes := (st.graph.nodes.set st.source (.task (sourceAfter (ps ++ [p])))) } (taskOfPass p)).nodes =
          .task (sourceAfter (ps ++ [p])) ::
            (ps ++ [p]).map (fun q => .task (taskOfPass q)) := by
        show st.graph.nodes.set st.source (.task (sourceAfter (ps ++ [p]))) ++
          [.task (taskOfPass p)] = _
        rw [hG1nodes]
        simp
      have hD1 := isDependent_child_iff _ _ (ps ++ [p]) hW ps.length p
        (List.get?_concat_length ps p)
      have hD2 := isDependent_parent_iff _ _ (ps ++ [p]) hW rfl ps.length p
        (List.get?_concat_length ps p)
      have hEdgeG1 : hasEdge { st.graph with nodes := (st.graph.nodes.set st.source (.task (sourceAfter (ps ++ [p])))) } a b ↔ edgeSpec ps a b := hedges a b
      rw [hEdgeG1]
      simp only [hD1, hD2, dependsB_source p (ps ++ [p]) (by simp)]
      simp only [edgeSpec]
      constructor
      · rintro (hsp | ⟨x, hx, ha, hb, hphi⟩ | ⟨x, hx, ha, hb, j, hxj, hdep⟩)
        · rcases hsp with ⟨ha0, j, q, hb, hget, hsw⟩ | ⟨i, j, ha, hb, hdep⟩
          · refine Or.inl ⟨ha0, j, q, hb, ?_, hsw⟩
            rw [List.get?_append (List.get?_eq_some.mp hget).1]
            exact hget
          · refine Or.inr ⟨i, j, ha, hb, ?_⟩
            exact (passDep_append_lt ps p i j (passDep_lt _ _ _ hdep).1
              (passDep_lt _ _ _ hdep).2).mpr hdep
        · rcases hphi with ⟨hx0, hsw⟩ | ⟨i, hxi, hdep⟩
          · exact Or.inl ⟨ha.trans hx0, ps.length, p, hb,
              List.get?_concat_length ps p, hsw⟩
          · exact Or.inr ⟨i, ps.length, by rw [ha, hxi], hb, hdep⟩
        · exact Or.inr ⟨ps.length, j, ha, by rw [hb, hxj], hdep⟩
      · rintro (⟨ha0, j, q, hb, hget, hsw⟩ | ⟨i, j, ha, hb, hdep⟩)
        · have hj : j < ps.length + 1 := by
            have := (List.get?_eq_some.mp hget).1
            simpa using this
          by_cases hjm : j < ps.length
          · refine Or.inl (Or.inl ⟨ha0, j, q, hb, ?_, hsw⟩)
            rw [List.get?_append hjm] at hget
            exact hget
          · have hjeq : j = ps.length := by omega
            rw [hjeq] at hb hget
            have hq : q = p := by
              rw [List.get?_concat_length] at hget
              simpa using hget.symm
            refine Or.inr (Or.inl ⟨0, by omega, ha0, hb, Or.inl ⟨rfl, ?_⟩⟩)
            rw [← hq]
            exact hsw
        · have hi := (passDep_lt _ _ _ hdep).1
          have hj := (passDep_lt _ _ _ hdep).2
          simp only [List.length_append, List.length_cons, List.length_nil] at hi hj
          by_cases him : i = ps.length
          · rw [him] at ha hdep
            exact Or.inr (Or.inr ⟨j + 1, by omega, ha, hb, j, rfl, hdep⟩)
          · by_cases hjm : j = ps.length
            · rw [hjm] at hb hdep
              exact Or.inr (Or.inl ⟨i + 1, by omega, ha, hb, Or.inr ⟨i, rfl, hdep⟩⟩)
            · refine Or.inl (Or.inr ⟨i, j, ha, hb, ?_⟩)
              exact (passDep_append_lt ps p i j (by omega) (by omega)).mp hdep

theorem edgeSpec_valid (ps : List Pass) (a b : Nat) (h : edgeSpec ps a b) :
    a < ps.length + 1 ∧ b < ps.length + 1 := by
  rcases h with ⟨ha0, j, q, hb, hget, _⟩ | ⟨i, j, ha, hb, hdep⟩
  · have hj := (List.get?_eq_some.mp hget).1
    omega
  · have := passDep_lt _ _ _ hdep
    omega

theorem transGen_congr {r s : Nat → Nat → Prop} (h : ∀ a b, r a b ↔ s a b) {a b : Nat} :
    Relation.TransGen r a b ↔ Relation.TransGen s a b :=
  ⟨Relation.TransGen.mono (fun x y hxy => (h x y).mp hxy),
    Relation.TransGen.mono (fun x y hxy => (h x y).mpr hxy)⟩

theorem transGen_edgeSpec_pos (ps : List Pass) :
    ∀ a b, Relation.TransGen (edgeSpec ps) a b → ∀ i, a = i + 1 →
      ∃ j, b = j + 1 ∧ Relation.TransGen (passDep ps) i j := by
  intro a b h
  induction h with
  | single hstep =>
    intro i hi
    rcases hstep with ⟨ha0, _⟩ | ⟨i', j, ha, hb, hdep⟩
    · omega
    · have hii : i' = i := by omega
      rw [hii] at hdep
      exact ⟨j, hb, Relation.TransGen.single hdep⟩
  | tail _ hstep ih =>
    intro i hi
    obtain ⟨k, rfl, htg⟩ := ih i hi
    rcases hstep with ⟨hc0, _⟩ | ⟨k', j, hc, hb, hdep⟩
    · omega
    · have hkk : k' = k := by omega
      rw [hkk] at hdep
      exact ⟨j, hb, Relation.TransGen.tail htg hdep⟩

/-- Cycles in the built graph correspond exactly to cycles in the pass
dependency relation: the source node has no incoming edges, so no cycle can
pass through it. -/
theorem transGen_edgeSpec_shift (ps : List Pass) :
    (∃ a, Relation.TransGen (edgeSpec ps) a a) ↔ PassesCyclic ps := by
  constructor
  · rintro ⟨a, h⟩
    obtain ⟨c, hrtg, hstep⟩ := (Relation.TransGen.tail'_iff).mp h
    have ha : ∃ j, a = j + 1 := by
      rcases hstep with ⟨_, j, q, hb, _, _⟩ | ⟨i, j, _, hb, _⟩
      · exact ⟨j, hb⟩
      · exact ⟨j, hb⟩
    obtain ⟨i, rfl⟩ := ha
    obtain ⟨j, hj, htg⟩ := transGen_edgeSpec_pos ps _ _ h i rfl
    have hji : j = i := by omega
    rw [hji] at htg
    exact ⟨i, htg⟩
  · rintro ⟨i, h⟩
    refine ⟨i + 1, ?_⟩
    have hlift : ∀ a b, passDep ps a b → edgeSpec ps (a + 1) (b + 1) := by
      intro a b hab
      exact Or.inr ⟨a, b, rfl, rfl, hab⟩
    exact @Relation.TransGen.lift Nat Nat (passDep ps) (edgeSpec ps) i i
      (fun k => k + 1) hlift h

/-- For a graph with the `addPasses` structure, petgraph's cycle test agrees
with cyclicity of the pass dependency relation. -/
theorem isCyclicDirected_iff_passesCyclic (g : SGraph) (ps : List Pass)
    (hlen : g.nodes.length = ps.length + 1)
    (hedges : ∀ a b, hasEdge g a b ↔ edgeSpec ps a b) :
    isCyclicDirected g = true ↔ PassesCyclic ps := by
  unfold isCyclicDirected
  rw [hlen]
  have hvalid : ∀ a b, stepRel (succs g) a b → a < ps.length + 1 ∧ b < ps.length + 1 := by
    intro a b hab
    exact edgeSpec_valid ps a b ((hedges a b).mp ((stepRel_succs g a b).mp hab))
  rw [cyclicF_iff (succs g) (ps.length + 1) hvalid]
  rw [show (∃ a, Relation.TransGen (stepRel (succs g)) a a) ↔
      (∃ a, Relation.TransGen (edgeSpec ps) a a) from
    exists_congr (fun a => transGen_congr (fun x y => (stepRel_succs g x y).trans (hedges x y)))]
  exact transGen_edgeSpec_shift ps

/-- The result of `add_pass` is `GraphHasCycle` exactly when the mutated
graph is cyclic; the mutated state is returned either way. -/
theorem addPass_result (st : GState) (p : Pass) (st' : GState) (r : Except Error Unit)
    (h : addPass st p = some (st', r)) :
    r = if isCyclicDirected st'.graph then Except.error Error.GraphHasCycle
      else Except.ok () := by
  unfold addPass at h
  cases hg : st.graph.nodes.get? st.source with
  | none => rw [hg] at h; cases h
  | some n =>
    cases n with
    | barrier b => rw [hg] at h; cases h
    | task s =>
      rw [hg] at h
      dsimp only at h
      have hpair := Option.some.inj h
      have h1 := congrArg Prod.fst hpair
      have h2 := congrArg Prod.snd hpair
      dsimp only at h1 h2
      rw [← h2]
      have hgr : st'.graph = (addTask { st.graph with nodes := (st.graph.nodes.set st.source (.task { s with outputs := s.outputs ++ (p.inputs.filter (fun input => input.resource.is_source)).map injectedResource })) } (taskOfPass p)).1 := by
        rw [← h1]
      rw [hgr]
      rfl

/-- Claim C3: for any sequence of `add_pass` calls whose declared UIDs induce
a cycle in the producer→consumer relation, the call that closes the cycle
(the first pass `p` after an acyclic prefix `ps`) returns `GraphHasCycle`,
and the offending node and its edges are not rolled back: the state after
the failing call still contains the new pass as the last task node together
with every UID-induced dependency edge. -/
theorem add_pass_closing_cycle_errors (ps : List Pass) (p : Pass) (st : GState)
    (hst : addPasses GpuTaskGraph.new ps = some st)
    (hacyc : ¬ PassesCyclic ps) (hcyc : PassesCyclic (ps ++ [p])) :
    isCyclicDirected st.graph = false ∧
    ∃ st', addPass st p = some (st', Except.error Error.GraphHasCycle) ∧
      st'.graph.nodes = .task (sourceAfter (ps ++ [p])) ::
        (ps ++ [p]).map (fun q => .task (taskOfPass q)) ∧
      (∀ a b, hasEdge st'.graph a b ↔ edgeSpec (ps ++ [p]) a b) := by
  obtain ⟨st0, h0, hsrc0, hnodes0, hedges0⟩ := addPasses_spec ps
  have hst0 : st0 = st := by rw [h0] at hst; exact Option.some.inj hst
  rw [hst0] at h0 hnodes0 hedges0
  obtain ⟨st1, h1, hsrc1, hnodes1, hedges1⟩ := addPasses_spec (ps ++ [p])
  have hlen0 : st.graph.nodes.length = ps.length + 1 := by rw [hnodes0]; simp
  have hlen1 : st1.graph.nodes.length = (ps ++ [p]).length + 1 := by rw [hnodes1]; simp
  have hfalse : isCyclicDirected st.graph = false := by
    rw [Bool.eq_false_iff, Ne, isCyclicDirected_iff_passesCyclic st.graph ps hlen0 hedges0]
    exact hacyc
  refine ⟨hfalse, ?_⟩
  rw [addPasses_append_eq, h0] at h1
  dsimp only at h1
  cases haddp : addPass st p with
  | none => rw [haddp] at h1; cases h1
  | some x =>
    cases x with
    | mk st2 r =>
      rw [haddp] at h1
      have hst2 : st2 = st1 := Option.some.inj h1
      have hcyc2 : isCyclicDirected st2.graph = true := by
        rw [hst2]
        rw [isCyclicDirected_iff_passesCyclic st1.graph (ps ++ [p]) (by simpa using hlen1)
          hedges1]
        exact hcyc
      have hr : r = Except.error Error.GraphHasCycle := by
        rw [addPass_result st p st2 r haddp, hcyc2]
        simp
      refine ⟨st2, by rw [hr], ?_, ?_⟩
      · rw [hst2]
        exact hnodes1
      · rw [hst2]
        exact hedges1

/-- A decidable successor function for the pass dependency relation. -/
def passSuccs (ps : List Pass) (i : Nat) : List Nat :=
  (List.range ps.length).filter (fun j =>
    match ps.get? i, ps.get? j with
    | some pa, some pb => dependsB (taskOfPass pb) (taskOfPass pa)
    | _, _ => false)

/-- Executable test for `PassesCyclic`. -/
def passesCyclicB (ps : List Pass) : Bool := cyclicF (passSuccs ps) ps.length

theorem stepRel_passSuccs (ps : List Pass) (i j : Nat) :
    stepRel (passSuccs ps) i j ↔ passDep ps i j := by
  unfold stepRel passSuccs passDep
  rw [List.mem_filter, List.mem_range]
  cases hi : ps.get? i with
  | none => simp
  | some pa =>
    cases hj : ps.get? j with
    | none =>
      have : ¬ j < ps.length := by
        intro hlt
        rw [List.get?_eq_get hlt] at hj
        cases hj
      simp [this]
    | some pb =>
      have hjlt : j < ps.length := (List.get?_eq_some.mp hj).1
      simp [hjlt]

theorem passesCyclic_iff_b (ps : List Pass) :
    PassesCyclic ps ↔ passesCyclicB ps = true := by
  unfold passesCyclicB
  have hvalid : ∀ a b, stepRel (passSuccs ps) a b → a < ps.length ∧ b < ps.length := by
    intro a b hab
    rw [stepRel_passSuccs] at hab
    exact passDep_lt ps a b hab
  rw [cyclicF_iff (passSuccs ps) ps.length hvalid]
  exact (exists_congr (fun a => transGen_congr (stepRel_passSuccs ps))).symm

/-- Fixture passes for the C3 witness: scenario S5, `A` consumes `x+` and
produces `y+`, `B` consumes `y+` and produces `x+`. -/
def c3PassA : Pass :=
  { name := "A".toList, inputs := [mkRes "x+" .ShaderRead 4],
    outputs := [mkRes "y+" .ShaderWrite 8] }

def c3PassB : Pass :=
  { name := "B".toList, inputs := [mkRes "y+" .ShaderRead 4],
    outputs := [mkRes "x+" .ShaderWrite 8] }

theorem add_pass_closing_cycle_errors_witness :
    (addPasses GpuTaskGraph.new [c3PassA] = some ((addPasses GpuTaskGraph.new
      [c3PassA]).getD GpuTaskGraph.new) ∧
     ¬ PassesCyclic [c3PassA] ∧ PassesCyclic [c3PassA, c3PassB]) ∧
    (isCyclicDirected ((addPasses GpuTaskGraph.new [c3PassA]).getD
        GpuTaskGraph.new).graph = false ∧
      ∃ st', addPass ((addPasses GpuTaskGraph.new [c3PassA]).getD GpuTaskGraph.new)
          c3PassB = some (st', Except.error Error.GraphHasCycle) ∧
        st'.graph.nodes = .task (sourceAfter ([c3PassA] ++ [c3PassB])) ::
          ([c3PassA] ++ [c3PassB]).map (fun q => .task (taskOfPass q)) ∧
        (∀ a b, hasEdge st'.graph a b ↔ edgeSpec ([c3PassA] ++ [c3PassB]) a b)) := by
  have h1 : ¬ PassesCyclic [c3PassA] := by
    rw [passesCyclic_iff_b]
    decide
  have h2 : PassesCyclic [c3PassA, c3PassB] := by
    rw [passesCyclic_iff_b]
    decide
  have h3 : PassesCyclic ([c3PassA] ++ [c3PassB]) := h2
  exact ⟨⟨by decide, h1, h2⟩,
    add_pass_closing_cycle_errors [c3PassA] c3PassB _ (by decide) h1 h3⟩

/-! ### The merge phase -/

theorem barriersOf_mem (g : SGraph) (n : Nat) (b : GpuBarrier) :
    (n, b) ∈ barriersOf g ↔ g.nodes.get? n = some (.barrier b) := by
  unfold barriersOf
  rw [List.mem_filterMap]
  constructor
  · rintro ⟨i, hi, hmatch⟩
    cases hg : g.nodes.get? i with
    | none => rw [hg] at hmatch; cases hmatch
    | some nd =>
      cases nd with
      | task t => rw [hg] at hmatch; cases hmatch
      | barrier b' =>
        rw [hg] at hmatch
        obtain ⟨rfl, rfl⟩ : i = n ∧ b' = b := by
          have h1 := congrArg (fun x => Option.map Prod.fst x) hmatch
          have h2 := congrArg (fun x => Option.map Prod.snd x) hmatch
          simp at h1 h2
          exact ⟨h1, h2⟩
        exact hg
  · intro hg
    refine ⟨n, ?_, ?_⟩
    · rw [List.mem_range]
      exact (List.get?_eq_some.mp hg).1
    · rw [hg]

theorem barriersOf_functional (g : SGraph) (n : Nat) (b b' : GpuBarrier)
    (h : (n, b) ∈ barriersOf g) (h' : (n, b') ∈ barriersOf g) : b = b' := by
  rw [barriersOf_mem] at h h'
  rw [h] at h'
  simpa using h'

/-- A barrier with a destination resource has at least one outgoing edge. -/
theorem dst_some_outEdges (g : SGraph) (n : Nat) (r : GpuResource)
    (h : barrier_dst_resource g n = some r) :
    ∃ e t, outEdges g n = e :: t := by
  unfold barrier_dst_resource at h
  cases hg : g.nodes.get? n with
  | none => rw [hg] at h; cases h
  | some nd =>
    cases nd with
    | task t => rw [hg] at h; cases h
    | barrier b =>
      rw [hg] at h
      cases he : outEdges g n with
      | nil => rw [he] at h; cases h
      | cons e t => exact ⟨e, t, rfl⟩

theorem flagsGet_insert_self (l : List (Nat × Nat × Nat)) (n : Nat) (v : Nat × Nat) :
    flagsGet (flagsInsert l n v) n = some v := by
  simp [flagsGet, flagsInsert]

theorem flagsGet_insert_ne (l : List (Nat × Nat × Nat)) (n k : Nat) (v : Nat × Nat)
    (h : k ≠ n) : flagsGet (flagsInsert l n v) k = flagsGet l k := by
  simp [flagsGet, flagsInsert, List.find?_cons, Ne.symm h]

/-- A barrier entry whose destination usage clashes with `dstU`: both
non-read and different.  This is the exact error condition of the merge. -/
def conflictsWith (g : SGraph) (dstU : ResourceUsage) (nb : Nat × GpuBarrier) : Prop :=
  ∃ r, barrier_dst_resource g nb.1 = some r ∧ r.usage.is_read = false ∧
    dstU.is_read = false ∧ r.usage ≠ dstU

/-- If the inner merge loop meets a same-UID barrier whose destination usage
clashes with the outer barrier's, it fails with `IllegalTaskGraph`. -/
theorem mergeInner_err (g : SGraph) (node : Nat) (b : GpuBarrier) (dstU : ResourceUsage) :
    ∀ (l : List (Nat × GpuBarrier)) (st : MergeSt),
      node ∉ st.toRemove →
      (∃ v, flagsGet st.flags node = some v) →
      (∀ nb ∈ l, (barrier_dst_resource g nb.1).isSome = true) →
      (∃ nb ∈ l, nb.1 ≠ node ∧ nb.2.resource.uid = b.resource.uid ∧
        conflictsWith g dstU nb) →
      mergeInner g node b dstU l st = some (.error .IllegalTaskGraph) := by
  intro l
  induction l with
  | nil =>
    intro st _ _ _ hwit
    obtain ⟨nb, hmem, _⟩ := hwit
    cases hmem
  | cons hd rest ih =>
    intro st hnode hflags hwf hwit
    obtain ⟨m, bm⟩ := hd
    show mergeInner g node b dstU ((m, bm) :: rest) st = _
    unfold mergeInner
    by_cases hm : m = node
    · rw [if_pos (by simpa using hm)]
      refine ih st hnode hflags (fun nb h => hwf nb (List.mem_cons_of_mem _ h)) ?_
      obtain ⟨nb, hmem, hne, huid, hconf⟩ := hwit
      rcases List.mem_cons.mp hmem with rfl | hmem
      · exact absurd hm (by simpa using hne)
      · exact ⟨nb, hmem, hne, huid, hconf⟩
    · rw [if_neg (by simpa using hm)]
      rw [if_neg (by simpa using hnode)]
      have hdsome : (barrier_dst_resource g (m, bm).1).isSome = true :=
        hwf (m, bm) (List.mem_cons_self _ _)
      obtain ⟨rm, hrm⟩ := Option.isSome_iff_exists.mp hdsome
      rw [hrm]
      dsimp only
      by_cases huid : bm.resource.uid = b.resource.uid
      · rw [if_pos (by simpa using huid)]
        by_cases hconf : rm.usage.is_read = false ∧ dstU.is_read = false ∧ rm.usage ≠ dstU
        · rw [if_pos (by simp [hconf.1, hconf.2.1, bne_iff_ne, hconf.2.2])]
        · rw [if_neg (by
            simp only [Bool.and_eq_true, Bool.not_eq_true', bne_iff_ne]
            intro hc
            exact hconf ⟨by simpa using hc.1.1, by simpa using hc.1.2, hc.2⟩)]
          obtain ⟨e, t, het⟩ := dst_some_outEdges g m rm hrm
          rw [het]
          obtain ⟨v, hv⟩ := hflags
          rw [hv]
          have hwit' : ∃ nb ∈ rest, nb.1 ≠ node ∧ nb.2.resource.uid = b.resource.uid ∧
              conflictsWith g dstU nb := by
            obtain ⟨nb, hmem, hne, huid2, hconf2⟩ := hwit
            rcases List.mem_cons.mp hmem with rfl | hmem
            · obtain ⟨r, hr, h1, h2, h3⟩ := hconf2
              rw [hrm] at hr
              have : rm = r := by simpa using hr
              rw [← this] at h1 h3
              exact absurd ⟨h1, h2, h3⟩ hconf
            · exact ⟨nb, hmem, hne, huid2, hconf2⟩
          refine ih _ ?_ ?_ (fun nb h => hwf nb (List.mem_cons_of_mem _ h)) hwit'
          · simp only [MergeSt.toRemove]
            intro hmem2
            rcases List.mem_append.mp hmem2 with h | h
            · exact hnode h
            · have hnm : node = m := by simpa using h
              exact hm hnm.symm
          · exact ⟨_, flagsGet_insert_self _ _ _⟩
      · rw [if_neg (by simpa using huid)]
        refine ih st hnode hflags (fun nb h => hwf nb (List.mem_cons_of_mem _ h)) ?_
        obtain ⟨nb, hmem, hne, huid2, hconf2⟩ := hwit
        rcases List.mem_cons.mp hmem with rfl | hmem
        · exact absurd huid2 huid
        · exact ⟨nb, hmem, hne, huid2, hconf2⟩

/-- The (stage, access) contribution of a barrier's destination resource. -/
def dstStAc (g : SGraph) (n : Nat) : Option (Nat × Nat) :=
  (barrier_dst_resource g n).map (fun r => (r.stage, r.usage.access))

/-- The accumulation step of the merge: or the contribution into the
accumulator, in the operand order of the source. -/
def orPair (acc sa : Nat × Nat) : Nat × Nat := (sa.1 ||| acc.1, sa.2 ||| acc.2)

/-- The same-UID entries of a barrier list that the inner loop merges into
`node`. -/
def mergedOf (node : Nat) (b : GpuBarrier) (l : List (Nat × GpuBarrier)) :
    List (Nat × GpuBarrier) :=
  l.filter (fun nb => !(nb.1 == node) && nb.2.resource.uid == b.resource.uid)

/-- If no same-UID barrier in the list clashes with the outer barrier's
destination usage, the inner loop succeeds; it schedules exactly the same-UID
entries for removal and ors their destination contributions into the outer
barrier's flags. -/
theorem mergeInner_ok (g : SGraph) (node : Nat) (b : GpuBarrier) (dstU : ResourceUsage) :
    ∀ (l : List (Nat × GpuBarrier)) (st : MergeSt),
      node ∉ st.toRemove →
      (∃ v, flagsGet st.flags node = some v) →
      (∀ nb ∈ l, (barrier_dst_resource g nb.1).isSome = true) →
      (∀ nb ∈ l, nb.1 ≠ node → nb.2.resource.uid = b.resource.uid →
        ¬ conflictsWith g dstU nb) →
      ∃ st', mergeInner g node b dstU l st = some (.ok st') ∧
        st'.toRemove = st.toRemove ++ (mergedOf node b l).map (fun nb => nb.1) ∧
        (∀ k, k ≠ node → flagsGet st'.flags k = flagsGet st.flags k) ∧
        flagsGet st'.flags node = some
          (((mergedOf node b l).filterMap (fun nb => dstStAc g nb.1)).foldl orPair
            ((flagsGet st.flags node).getD (0, 0))) := by
  intro l
  induction l with
  | nil =>
    intro st hnode hflags _ _
    obtain ⟨v, hv⟩ := hflags
    refine ⟨st, rfl, by simp [mergedOf], fun k _ => rfl, ?_⟩
    simp [mergedOf, hv]
  | cons hd rest ih =>
    intro st hnode hflags hwf hnoc
    obtain ⟨m, bm⟩ := hd
    obtain ⟨v, hv⟩ := hflags
    show ∃ st', mergeInner g node b dstU ((m, bm) :: rest) st = some (.ok st') ∧ _
    unfold mergeInner
    by_cases hm : m = node
    · rw [if_pos (by simpa using hm)]
      have hskip : mergedOf node b ((m, bm) :: rest) = mergedOf node b rest := by
        unfold mergedOf
        rw [List.filter_cons]
        rw [if_neg (by simp [hm])]
      rw [hskip]
      exact ih st hnode ⟨v, hv⟩ (fun nb h => hwf nb (List.mem_cons_of_mem _ h))
        (fun nb h => hnoc nb (List.mem_cons_of_mem _ h))
    · rw [if_neg (by simpa using hm)]
      rw [if_neg (by simpa using hnode)]
      have hdsome : (barrier_dst_resource g (m, bm).1).isSome = true :=
        hwf (m, bm) (List.mem_cons_self _ _)
      obtain ⟨rm, hrm⟩ := Option.isSome_iff_exists.mp hdsome
      rw [hrm]
      dsimp only
      by_cases huid : bm.resource.uid = b.resource.uid
      · rw [if_pos (by simpa using huid)]
        have hnc := hnoc (m, bm) (List.mem_cons_self _ _) hm huid
        have hcheck : (!rm.usage.is_read && !dstU.is_read && rm.usage != dstU) = false := by
          rw [Bool.eq_false_iff]
          intro hc
          simp only [Bool.and_eq_true, Bool.not_eq_true', bne_iff_ne] at hc
          exact hnc ⟨rm, hrm, hc.1.1, hc.1.2, hc.2⟩
        rw [if_neg (by simp [hcheck])]
        obtain ⟨e, t, het⟩ := dst_some_outEdges g m rm hrm
        rw [het]
        rw [hv]
        dsimp only
        have hmerged : mergedOf node b ((m, bm) :: rest) =
            (m, bm) :: mergedOf node b rest := by
          unfold mergedOf
          rw [List.filter_cons]
          rw [if_pos (by simp [hm, huid])]
        obtain ⟨st', hst', htr, hfk, hfn⟩ := ih
          ⟨st.toRemove ++ [m],
            st.edgesToAdd ++ [(node, e.2.1, rm.uid)],
            flagsInsert st.flags node (rm.stage ||| v.1, rm.usage.access ||| v.2)⟩
          (by
            intro hmem2
            rcases List.mem_append.mp hmem2 with h | h
            · exact hnode h
            · have hnm : node = m := by simpa using h
              exact hm hnm.symm)
          ⟨_, flagsGet_insert_self _ _ _⟩
          (fun nb h => hwf nb (List.mem_cons_of_mem _ h))
          (fun nb h => hnoc nb (List.mem_cons_of_mem _ h))
        refine ⟨st', hst', ?_, ?_, ?_⟩
        · rw [htr]
          simp [hmerged]
        · intro k hk
          rw [hfk k hk]
          exact flagsGet_insert_ne _ _ _ _ hk
        · rw [hfn]
          rw [hmerged]
          have hdst : dstStAc g m = some (rm.stage, rm.usage.access) := by
            unfold dstStAc
            rw [hrm]
            rfl
          rw [List.filterMap_cons]
          rw [hdst]
          rw [List.foldl_cons]
          rw [flagsGet_insert_self]
          rfl
      · rw [if_neg (by simpa using huid)]
        have hskip : mergedOf node b ((m, bm) :: rest) = mergedOf node b rest := by
          unfold mergedOf
          rw [List.filter_cons]
          rw [if_neg (by simp [huid])]
        rw [hskip]
        exact ih st hnode ⟨v, hv⟩ (fun nb h => hwf nb (List.mem_cons_of_mem _ h))
          (fun nb h => hnoc nb (List.mem_cons_of_mem _ h))

/-- The inner loop is a no-op when the outer barrier is already scheduled for
removal: every step takes one of the two skipping branches. -/
theorem mergeInner_skip (g : SGraph) (node : Nat) (b : GpuBarrier)
    (dstU : ResourceUsage) :
    ∀ (l : List (Nat × GpuBarrier)) (st : MergeSt), node ∈ st.toRemove →
      mergeInner g node b dstU l st = some (.ok st) := by
  intro l
  induction l with
  | nil => intro st _; rfl
  | cons hd rest ih =>
    intro st hnode
    obtain ⟨m, bm⟩ := hd
    show mergeInner g node b dstU ((m, bm) :: rest) st = _
    unfold mergeInner
    by_cases hm : m = node
    · rw [if_pos (by simpa using hm)]
      exact ih st hnode
    · rw [if_neg (by simpa using hm), if_pos (by simpa using hnode)]
      exact ih st hnode

/-- Barrier indices are listed in strictly increasing order. -/
theorem barriersOf_pairwise (g : SGraph) :
    (barriersOf g).Pairwise (fun x y => x.1 < y.1) := by
  unfold barriersOf
  rw [List.pairwise_filterMap]
  refine (List.pairwise_lt_range _).imp ?_
  intro a c hac x hx y hy
  have hxa : x.1 = a := by
    cases hg : g.nodes.get? a with
    | none => rw [hg] at hx; cases hx
    | some nd =>
      cases nd with
      | task t => rw [hg] at hx; cases hx
      | barrier bb =>
        rw [hg] at hx
        cases hx
        rfl
  have hyc : y.1 = c := by
    cases hg : g.nodes.get? c with
    | none => rw [hg] at hy; cases hy
    | some nd =>
      cases nd with
      | task t => rw [hg] at hy; cases hy
      | barrier bb =>
        rw [hg] at hy
        cases hy
        rfl
  rw [hxa, hyc]
  exact hac

/-- The barriers over a given resource UID, in index order; the merge's outer
loop treats the first of them as the survivor of the class. -/
def classOf (g : SGraph) (u : Uid) : List (Nat × GpuBarrier) :=
  (barriersOf g).filter (fun nb => nb.2.resource.uid == u)

theorem classOf_mem (g : SGraph) (u : Uid) (nb : Nat × GpuBarrier) :
    nb ∈ classOf g u ↔ nb ∈ barriersOf g ∧ nb.2.resource.uid = u := by
  unfold classOf
  rw [List.mem_filter]
  simp

theorem classOf_pairwise (g : SGraph) (u : Uid) :
    (classOf g u).Pairwise (fun x y => x.1 < y.1) :=
  (barriersOf_pairwise g).filter _

/-- For the head of a class, the entries the inner loop merges are exactly
the tail of the class. -/
theorem mergedOf_eq_tail (g : SGraph) (n : Nat) (b : GpuBarrier)
    (tl : List (Nat × GpuBarrier))
    (h : classOf g b.resource.uid = (n, b) :: tl) :
    mergedOf n b (barriersOf g) = tl := by
  have hstep : mergedOf n b (barriersOf g) =
      (classOf g b.resource.uid).filter (fun nb => !(nb.1 == n)) := by
    unfold mergedOf classOf
    rw [List.filter_filter]
  rw [hstep, h, List.filter_cons]
  rw [if_neg (by simp)]
  rw [List.filter_eq_self.mpr ?_]
  intro x hx
  have hpw := classOf_pairwise g b.resource.uid
  rw [h] at hpw
  have hlt : n < x.1 := (List.pairwise_cons.mp hpw).1 x hx
  simp [Nat.ne_of_gt hlt]

/-- The destination (stage, access) pair a class head accumulates during the
merge: its own destination contribution ored with each follower's. -/
def classOr (g : SGraph) (u : Uid) : Nat × Nat :=
  match classOf g u with
  | [] => (0, 0)
  | h :: t => (t.filterMap (fun nb => dstStAc g nb.1)).foldl orPair
      ((dstStAc g h.1).getD (0, 0))

theorem barriersOf_idx_disjoint (g : SGraph) (pre rest : List (Nat × GpuBarrier))
    (h : barriersOf g = pre ++ rest) :
    ∀ x ∈ pre, ∀ y ∈ rest, x.1 < y.1 := by
  have hp := barriersOf_pairwise g
  rw [h] at hp
  exact fun x hx y hy => (List.pairwise_append.mp hp).2.2 x hx y hy

/-- Invariant of the outer merge loop after processing the prefix `pre` of
the barrier list: (A) the removal list holds exactly the non-head members of
classes whose head was already processed; (B) a processed class head's flags
entry holds the class accumulation; (C) a processed class head saw no
conflicting same-UID member. -/
def OuterInv (g : SGraph) (pre : List (Nat × GpuBarrier)) (st : MergeSt) : Prop :=
  (∀ m : Nat, m ∈ st.toRemove ↔ ∃ hd ∈ pre,
      (classOf g hd.2.resource.uid).head? = some hd ∧
      (∃ bm, (m, bm) ∈ classOf g hd.2.resource.uid) ∧ m ≠ hd.1) ∧
  (∀ nb ∈ pre, (classOf g nb.2.resource.uid).head? = some nb →
      flagsGet st.flags nb.1 = some (classOr g nb.2.resource.uid)) ∧
  (∀ nb ∈ pre, (classOf g nb.2.resource.uid).head? = some nb →
      ∀ r, barrier_dst_resource g nb.1 = some r →
      ∀ nb2 ∈ barriersOf g, nb2.1 ≠ nb.1 → nb2.2.resource.uid = nb.2.resource.uid →
      ¬ conflictsWith g r.usage nb2)

/-- The outer merge loop either fails with `IllegalTaskGraph` or succeeds in
a state satisfying the invariant for the whole barrier list. -/
theorem mergeOuter_spec (g : SGraph)
    (hwf : ∀ nb ∈ barriersOf g, (barrier_dst_resource g nb.1).isSome = true) :
    ∀ (rest pre : List (Nat × GpuBarrier)) (st : MergeSt),
      barriersOf g = pre ++ rest → OuterInv g pre st →
      mergeOuter g rest st = some (.error .IllegalTaskGraph) ∨
      ∃ stF, mergeOuter g rest st = some (.ok stF) ∧ OuterInv g (barriersOf g) stF := by
  intro rest
  induction rest with
  | nil =>
    intro pre st happ hinv
    right
    refine ⟨st, rfl, ?_⟩
    rw [List.append_nil] at happ
    rw [← happ] at hinv
    exact hinv
  | cons hd0 rest' ih =>
    intro pre st happ hinv
    obtain ⟨node, b⟩ := hd0
    obtain ⟨hA, hB, hC⟩ := hinv
    have hmem : (node, b) ∈ barriersOf g := by
      rw [happ]
      exact List.mem_append_right _ (List.mem_cons_self _ _)
    obtain ⟨dst, hdst⟩ := Option.isSome_iff_exists.mp (hwf _ hmem)
    have hdisj : ∀ x ∈ pre, x.1 < node :=
      fun x hx => barriersOf_idx_disjoint g pre ((node, b) :: rest') happ x hx
        (node, b) (List.mem_cons_self _ _)
    have happ' : barriersOf g = (pre ++ [(node, b)]) ++ rest' := by
      rw [happ]
      simp
    show (match mergeOuter g ((node, b) :: rest') st with | x => x) = _ ∨ _
    unfold mergeOuter
    rw [hdst]
    dsimp only
    by_cases hhd : (classOf g b.resource.uid).head? = some (node, b)
    · -- `(node, b)` is the head of its class: the inner loop really merges.
      obtain ⟨tl, htl⟩ : ∃ tl, classOf g b.resource.uid = (node, b) :: tl := by
        cases hcl : classOf g b.resource.uid with
        | nil => rw [hcl] at hhd; cases hhd
        | cons q t =>
          rw [hcl] at hhd
          have hq : q = (node, b) := by simpa using hhd
          exact ⟨t, by rw [hq]⟩
      have hnode_st : node ∉ st.toRemove := by
        intro hcon
        obtain ⟨hd1, hd1pre, hh1, ⟨bm, hbm⟩, hne1⟩ := (hA node).mp hcon
        have hbmbs : (node, bm) ∈ barriersOf g := ((classOf_mem g _ _).mp hbm).1
        have hbmb : bm = b := barriersOf_functional g node bm b hbmbs hmem
        rw [hbmb] at hbm
        have huid : b.resource.uid = hd1.2.resource.uid := ((classOf_mem g _ _).mp hbm).2
        rw [← huid] at hh1
        rw [hhd] at hh1
        have : hd1 = (node, b) := by simpa using hh1.symm
        rw [this] at hne1
        exact hne1 rfl
      have hflags1 : ∃ v, flagsGet (flagsInsert st.flags node
          (dst.stage, dst.usage.access)) node = some v :=
        ⟨_, flagsGet_insert_self _ _ _⟩
      by_cases hconf : ∃ nb2 ∈ barriersOf g, nb2.1 ≠ node ∧
          nb2.2.resource.uid = b.resource.uid ∧ conflictsWith g dst.usage nb2
      · have herr := mergeInner_err g node b dst.usage (barriersOf g)
          { st with flags := flagsInsert st.flags node (dst.stage, dst.usage.access) }
          hnode_st hflags1 (fun nb h => hwf nb h) hconf
        rw [herr]
        left
        rfl
      · have hnoc : ∀ nb ∈ barriersOf g, nb.1 ≠ node →
            nb.2.resource.uid = b.resource.uid →
            ¬ conflictsWith g dst.usage nb :=
          fun nb h1 h2 h3 hc => hconf ⟨nb, h1, h2, h3, hc⟩
        obtain ⟨st2, hst2, htr2, hfk2, hfn2⟩ := mergeInner_ok g node b dst.usage
          (barriersOf g)
          { st with flags := flagsInsert st.flags node (dst.stage, dst.usage.access) }
          hnode_st hflags1 (fun nb h => hwf nb h) hnoc
        rw [hst2]
        dsimp only
        have htl1 : mergedOf node b (barriersOf g) = tl := mergedOf_eq_tail g node b tl htl
        rw [htl1] at htr2 hfn2
        have hpwtl : ∀ x ∈ tl, node < x.1 := by
          have hpw := classOf_pairwise g b.resource.uid
          rw [htl] at hpw
          exact (List.pairwise_cons.mp hpw).1
        refine ih (pre ++ [(node, b)]) st2 happ' ⟨?_, ?_, ?_⟩
        · intro m
          rw [htr2]
          constructor
          · intro hm
            rcases List.mem_append.mp hm with h | h
            · obtain ⟨hd1, hd1pre, hh1, hbm1, hne1⟩ := (hA m).mp h
              exact ⟨hd1, List.mem_append_left _ hd1pre, hh1, hbm1, hne1⟩
            · obtain ⟨x, hx, hxm⟩ := List.mem_map.mp h
              refine ⟨(node, b), List.mem_append_right _ (List.mem_cons_self _ _),
                hhd, ⟨x.2, ?_⟩, ?_⟩
              · rw [htl]
                have : x = (m, x.2) := by
                  rw [← hxm]
                · exact List.mem_cons_of_mem _ (this ▸ hx)
              · rw [← hxm]
                exact Nat.ne_of_gt (hpwtl x hx)
          · rintro ⟨hd1, hd1pre, hh1, ⟨bm, hbm⟩, hne1⟩
            rcases List.mem_append.mp hd1pre with hpre1 | hsing
            · exact List.mem_append_left _ ((hA m).mpr ⟨hd1, hpre1, hh1, ⟨bm, hbm⟩, hne1⟩)
            · have hd1eq : hd1 = (node, b) := by simpa using hsing
              rw [hd1eq] at hbm hne1
              rw [htl] at hbm
              rcases List.mem_cons.mp hbm with heq | hmem2
              · have : m = node := congrArg Prod.fst heq
                exact absurd this hne1
              · refine List.mem_append_right _ (List.mem_map.mpr ⟨(m, bm), hmem2, rfl⟩)
        · intro nb hnb hh
          rcases List.mem_append.mp hnb with hpre1 | hsing
          · have hne : nb.1 ≠ node := Nat.ne_of_lt (hdisj nb hpre1)
            rw [hfk2 nb.1 hne]
            rw [flagsGet_insert_ne _ _ _ _ hne]
            exact hB nb hpre1 hh
          · have hnbeq : nb = (node, b) := by simpa using hsing
            rw [hnbeq]
            rw [hfn2]
            have hinit : flagsGet (flagsInsert st.flags node
                (dst.stage, dst.usage.access)) node = some (dst.stage, dst.usage.access) :=
              flagsGet_insert_self _ _ _
            rw [hinit]
            have hgoal : classOr g b.resource.uid =
                (tl.filterMap (fun nb => dstStAc g nb.1)).foldl orPair
                  ((dstStAc g node).getD (0, 0)) := by
              unfold classOr
              rw [htl]
            rw [hgoal]
            have hdstac : dstStAc g node = some (dst.stage, dst.usage.access) := by
              unfold dstStAc
              rw [hdst]
              rfl
            rw [hdstac]
        · intro nb hnb hh r hr nb2 hnb2 hne2 huid2
          rcases List.mem_append.mp hnb with hpre1 | hsing
          · exact hC nb hpre1 hh r hr nb2 hnb2 hne2 huid2
          · have hnbeq : nb = (node, b) := by simpa using hsing
            rw [hnbeq] at hr hne2 huid2
            have hrdst : r = dst := by
              rw [hr] at hdst
              simpa using hdst
            rw [hrdst]
            exact hnoc nb2 hnb2 hne2 huid2
    · -- `(node, b)` is not the head of its class: the head was processed
      -- before, `node` is already scheduled for removal and the inner loop
      -- skips everything.
      have hclmem : (node, b) ∈ classOf g b.resource.uid :=
        (classOf_mem g _ _).mpr ⟨hmem, rfl⟩
      have hsplit : classOf g b.resource.uid =
          pre.filter (fun nb => nb.2.resource.uid == b.resource.uid) ++
          ((node, b) :: rest'.filter (fun nb => nb.2.resource.uid == b.resource.uid)) := by
        unfold classOf
        rw [happ, List.filter_append, List.filter_cons]
        rw [if_pos (by simp)]
      obtain ⟨hd1, hh1, hd1pre⟩ : ∃ hd1,
          (classOf g b.resource.uid).head? = some hd1 ∧ hd1 ∈ pre := by
        cases hq : pre.filter (fun nb => nb.2.resource.uid == b.resource.uid) with
        | nil =>
          rw [hq] at hsplit
          rw [List.nil_append] at hsplit
          rw [hsplit] at hhd
          exact absurd rfl hhd
        | cons q t =>
          refine ⟨q, ?_, List.mem_of_mem_filter (hq ▸ List.mem_cons_self q t)⟩
          rw [hsplit, hq]
          rfl
      have huid1 : hd1.2.resource.uid = b.resource.uid :=
        ((classOf_mem g _ _).mp (List.mem_of_mem_head? (by rw [hh1]; rfl))).2
      have hh1' : (classOf g hd1.2.resource.uid).head? = some hd1 := by
        rw [huid1]
        exact hh1
      have hnode_rm : node ∈ st.toRemove := by
        refine (hA node).mpr ⟨hd1, hd1pre, hh1', ⟨b, ?_⟩, ?_⟩
        · rw [huid1]
          exact hclmem
        · exact Nat.ne_of_gt (hdisj hd1 hd1pre)
      have hskip := mergeInner_skip g node b dst.usage (barriersOf g)
        { st with flags := flagsInsert st.flags node (dst.stage, dst.usage.access) }
        hnode_rm
      rw [hskip]
      dsimp only
      refine ih (pre ++ [(node, b)])
        { st with flags := flagsInsert st.flags node (dst.stage, dst.usage.access) }
        happ' ⟨?_, ?_, ?_⟩
      · intro m
        constructor
        · intro hm
          obtain ⟨hd2, hd2pre, hh2, hbm2, hne2⟩ := (hA m).mp hm
          exact ⟨hd2, List.mem_append_left _ hd2pre, hh2, hbm2, hne2⟩
        · rintro ⟨hd2, hd2pre, hh2, hbm2, hne2⟩
          rcases List.mem_append.mp hd2pre with hpre2 | hsing
          · exact (hA m).mpr ⟨hd2, hpre2, hh2, hbm2, hne2⟩
          · have hd2eq : hd2 = (node, b) := by simpa using hsing
            rw [hd2eq] at hh2
            exact absurd hh2 hhd
      · intro nb hnb hh
        rcases List.mem_append.mp hnb with hpre1 | hsing
        · have hne : nb.1 ≠ node := Nat.ne_of_lt (hdisj nb hpre1)
          rw [flagsGet_insert_ne _ _ _ _ hne]
          exact hB nb hpre1 hh
        · have hnbeq : nb = (node, b) := by simpa using hsing
          rw [hnbeq] at hh
          exact absurd hh hhd
      · intro nb hnb hh r hr nb2 hnb2 hne2 huid2
        rcases List.mem_append.mp hnb with hpre1 | hsing
        · exact hC nb hpre1 hh r hr nb2 hnb2 hne2 huid2
        · have hnbeq : nb = (node, b) := by simpa using hsing
          rw [hnbeq] at hh
          exact absurd hh hhd

/-- Claim C2 (amended): the `IllegalTaskGraph` error is raised from
consumer-side usages during barrier merging, not from producer output usages:
if after `create_barrier_nodes` all barriers over some resource UID have
non-read destination usages (the usages of the consumers' matching inputs)
and those destination usages are not all equal, `merge_identical_barriers` —
and hence `build` — returns `IllegalTaskGraph`. -/
theorem merge_conflicting_consumer_usages_illegal (st : GState) (u : Uid)
    (hwf : ∀ nb ∈ barriersOf (createBarrierNodes st.graph),
      (barrier_dst_resource (createBarrierNodes st.graph) nb.1).isSome = true)
    (hnonread : ∀ nb ∈ classOf (createBarrierNodes st.graph) u,
      (barrier_dst_resource (createBarrierNodes st.graph) nb.1).all
        (fun r => !r.usage.is_read) = true)
    (hdiff : ∃ nb1 ∈ classOf (createBarrierNodes st.graph) u,
      ∃ nb2 ∈ classOf (createBarrierNodes st.graph) u,
        (barrier_dst_resource (createBarrierNodes st.graph) nb1.1).map
          (fun r => r.usage) ≠
        (barrier_dst_resource (createBarrierNodes st.graph) nb2.1).map
          (fun r => r.usage)) :
    GpuTaskGraph.build st = some (.error .IllegalTaskGraph) := by
  set g := createBarrierNodes st.graph with hg
  have hinv0 : OuterInv g [] ⟨[], [], []⟩ := by
    refine ⟨?_, ?_, ?_⟩
    · intro m
      simp [MergeSt.toRemove]
    · intro nb hnb
      cases hnb
    · intro nb hnb
      cases hnb
  have hout := mergeOuter_spec g hwf (barriersOf g) [] ⟨[], [], []⟩
    (List.nil_append _).symm hinv0
  rcases hout with herr | ⟨stF, hok, hinvF⟩
  · unfold GpuTaskGraph.build mergeIdenticalBarriers
    rw [← hg, herr]
  · exfalso
    obtain ⟨nb1, hnb1, nb2, hnb2, hne⟩ := hdiff
    cases hcl : classOf g u with
    | nil => rw [hcl] at hnb1; cases hnb1
    | cons q t =>
      have hh : (classOf g u).head? = some q := by rw [hcl]; rfl
      have hqmem : q ∈ classOf g u := by rw [hcl]; exact List.mem_cons_self _ _
      obtain ⟨hqbs, hqu⟩ := (classOf_mem g u q).mp hqmem
      obtain ⟨dq, hdstq⟩ := Option.isSome_iff_exists.mp (hwf q hqbs)
      have hCq := hinvF.2.2 q hqbs (by rw [hqu]; exact hh) dq hdstq
      obtain ⟨nbX, hnbX, hneX⟩ : ∃ nbX ∈ classOf g u,
          (barrier_dst_resource g nbX.1).map (fun r => r.usage) ≠
          (barrier_dst_resource g q.1).map (fun r => r.usage) := by
        by_cases h1 : (barrier_dst_resource g nb1.1).map (fun r => r.usage) =
            (barrier_dst_resource g q.1).map (fun r => r.usage)
        · refine ⟨nb2, hnb2, ?_⟩
          intro h2
          rw [← h2] at h1
          exact hne h1
        · exact ⟨nb1, hnb1, h1⟩
      obtain ⟨hXbs, hXu⟩ := (classOf_mem g u nbX).mp hnbX
      obtain ⟨rX, hdstX⟩ := Option.isSome_iff_exists.mp (hwf nbX hXbs)
      have husageX : rX.usage ≠ dq.usage := by
        intro hc
        apply hneX
        rw [hdstX, hdstq]
        simp [hc]
      have hneidx : nbX.1 ≠ q.1 := by
        intro hc
        apply hneX
        rw [hc]
      have hreadX : rX.usage.is_read = false := by
        have := hnonread nbX hnbX
        rw [hdstX] at this
        simpa using this
      have hreadq : dq.usage.is_read = false := by
        have := hnonread q hqmem
        rw [hdstq] at this
        simpa using this
      have hcw : conflictsWith g dq.usage nbX := ⟨rX, hdstX, hreadX, hreadq, husageX⟩
      exact hCq nbX hXbs hneidx (by rw [hXu, hqu]) hcw

/-- Witness scenario for the amended C2: one producer of `x+` and two distinct
non-read consumers (`ShaderWrite` vs `Attachment`). -/
def c2wP : Pass :=
  { name := "P".toList, inputs := [], outputs := [mkRes "x+" .Attachment 0x400] }

def c2wQ1 : Pass :=
  { name := "Q1".toList, inputs := [mkRes "x+" .ShaderWrite 0x800], outputs := [] }

def c2wQ2 : Pass :=
  { name := "Q2".toList, inputs := [mkRes "x+" .Attachment 0x400], outputs := [] }

def c2wState : GState :=
  (addPasses GpuTaskGraph.new [c2wP, c2wQ1, c2wQ2]).getD GpuTaskGraph.new

theorem merge_conflicting_consumer_usages_illegal_witness :
    GpuTaskGraph.build c2wState = some (.error .IllegalTaskGraph) :=
  merge_conflicting_consumer_usages_illegal c2wState ("x+".toList)
    (by decide) (by decide) (by decide)

/-! ### Structure of the graph produced by create_barrier_nodes -/

/-- Is a node a task node? -/
def SNode.isTask : SNode → Bool
  | .task _ => true
  | .barrier _ => false

/-- The tasks of the original graph that have an input with the given UID
(what `consumersOf` computes, keyed by the UID alone). -/
def consumersU (g0 : SGraph) (u : Uid) : List Nat :=
  (List.range g0.nodes.length).filter (fun c =>
    match g0.nodes.get? c with
    | some (.task t) => t.inputs.any (fun input => input.uid == u)
    | _ => false)

theorem consumersU_mem (g0 : SGraph) (u : Uid) (c : Nat) :
    c ∈ consumersU g0 u ↔ c < g0.nodes.length ∧ ∃ t,
      g0.nodes.get? c = some (.task t) ∧
      t.inputs.any (fun input => input.uid == u) = true := by
  unfold consumersU
  rw [List.mem_filter, List.mem_range]
  constructor
  · rintro ⟨hc, hp⟩
    refine ⟨hc, ?_⟩
    cases hg : g0.nodes.get? c with
    | none => rw [hg] at hp; cases hp
    | some nd =>
      cases nd with
      | task t => rw [hg] at hp; exact ⟨t, rfl, hp⟩
      | barrier b => rw [hg] at hp; cases hp
  · rintro ⟨hc, t, hg, hp⟩
    exact ⟨hc, by rw [hg]; exact hp⟩

/-- The first input of the task at `c` whose UID is `u` (what a barrier's
destination-resource lookup computes). -/
def firstInputOver (g0 : SGraph) (c : Nat) (u : Uid) : Option GpuResource :=
  match g0.nodes.get? c with
  | some (.task t) => t.inputs.find? (fun input => input.uid == u)
  | _ => none

theorem removeFirstEdge_subset (es : List (Nat × Nat × Uid)) (a b : Nat) :
    ∀ e ∈ removeFirstEdge es a b, e ∈ es := by
  induction es with
  | nil => intro e he; cases he
  | cons hd tl ih =>
    intro e he
    unfold removeFirstEdge at he
    by_cases hm : (hd.1 == a && hd.2.1 == b) = true
    · rw [if_pos hm] at he
      exact List.mem_cons_of_mem _ he
    · rw [if_neg hm] at he
      rcases List.mem_cons.mp he with h | h
      · exact h ▸ List.mem_cons_self _ _
      · exact List.mem_cons_of_mem _ (ih e h)

theorem mem_removeFirstEdge (es : List (Nat × Nat × Uid)) (a b : Nat)
    (e : Nat × Nat × Uid) (he : e ∈ es) (hne : (e.1 == a && e.2.1 == b) = false) :
    e ∈ removeFirstEdge es a b := by
  induction es with
  | nil => cases he
  | cons hd tl ih =>
    unfold removeFirstEdge
    by_cases hm : (hd.1 == a && hd.2.1 == b) = true
    · rw [if_pos hm]
      rcases List.mem_cons.mp he with h | h
      · rw [h] at hne
        rw [hm] at hne
        cases hne
      · exact h
    · rw [if_neg hm]
      rcases List.mem_cons.mp he with h | h
      · exact h ▸ List.mem_cons_self _ _
      · exact List.mem_cons_of_mem _ (ih h)

/-- Removing an edge that cannot satisfy a filter keeps the filter intact. -/
theorem removeFirstEdge_filter (es : List (Nat × Nat × Uid)) (a b : Nat)
    (p : Nat × Nat × Uid → Bool)
    (h : ∀ e, (e.1 == a && e.2.1 == b) = true → p e = false) :
    (removeFirstEdge es a b).filter p = es.filter p := by
  induction es with
  | nil => rfl
  | cons hd tl ih =>
    unfold removeFirstEdge
    by_cases hm : (hd.1 == a && hd.2.1 == b) = true
    · rw [if_pos hm, List.filter_cons, if_neg (by rw [h hd hm]; simp)]
    · rw [if_neg hm, List.filter_cons, List.filter_cons]
      by_cases hp : p hd = true
      · rw [if_pos hp, if_pos hp, ih]
      · rw [if_neg hp, if_neg hp, ih]

theorem findEdge_eq_none (g : SGraph) (a b : Nat)
    (h : ∀ e ∈ g.edges, ¬(e.1 = a ∧ e.2.1 = b)) : findEdge g a b = none := by
  unfold findEdge
  rw [List.find?_eq_none]
  intro e he
  intro hc
  simp only [Bool.and_eq_true, beq_iff_eq] at hc
  exact h e he hc

/-- When no edge between the pair exists, `update_edge` is `add_edge`. -/
theorem updateEdge_fresh (g : SGraph) (a b : Nat) (w : Uid)
    (h : findEdge g a b = none) : updateEdge g a b w = addEdge g a b w := by
  unfold updateEdge
  rw [h]

theorem outEdges_addEdge_ne (g : SGraph) (a b m : Nat) (w : Uid) (h : a ≠ m) :
    outEdges (addEdge g a b w) m = outEdges g m := by
  unfold outEdges addEdge
  rw [List.filter_cons, if_neg (by simpa using h)]

theorem inEdges_addEdge_ne (g : SGraph) (a b m : Nat) (w : Uid) (h : b ≠ m) :
    inEdges (addEdge g a b w) m = inEdges g m := by
  unfold inEdges addEdge
  rw [List.filter_cons, if_neg (by simpa using h)]

/-- Mid-creation, the consumers of a resource are exactly the original
tasks with a matching input: the prefix of the node list is intact and every
appended node is a barrier, which has no inputs. -/
theorem consumersOf_stable (g0 acc : SGraph)
    (hlen : g0.nodes.length ≤ acc.nodes.length)
    (hpre : ∀ i, i < g0.nodes.length → acc.nodes.get? i = g0.nodes.get? i)
    (hup : ∀ i, g0.nodes.length ≤ i → ∀ nd, acc.nodes.get? i = some nd →
      ∃ b, nd = SNode.barrier b)
    (r : GpuResource) :
    consumersOf acc r = consumersU g0 (GpuResource.uid r) := by
  obtain ⟨k, hk⟩ := Nat.le.dest hlen
  unfold consumersOf consumersU
  rw [← hk, List.range_add, List.filter_append]
  have h2 : ((List.range k).map (g0.nodes.length + ·)).filter (fun c =>
      match acc.nodes.get? c with
      | some (.task t) => t.inputs.any (fun input => input.is_dependency_of r)
      | _ => false) = [] := by
    rw [List.filter_eq_nil_iff]
    intro x hx
    obtain ⟨i, hi, hxi⟩ := List.mem_map.mp hx
    rw [List.mem_range] at hi
    have hxlen : x < acc.nodes.length := by
      rw [← hk, ← hxi]
      exact Nat.add_lt_add_left hi _
    have hxge : g0.nodes.length ≤ x := by
      rw [← hxi]
      exact Nat.le_add_right _ _
    cases hnd : acc.nodes.get? x with
    | none =>
      rw [List.get?_eq_none] at hnd
      exact absurd hxlen (Nat.not_lt.mpr hnd)
    | some nd =>
      obtain ⟨bb, hbb⟩ := hup x hxge nd hnd
      rw [hbb]
      simp
  rw [h2, List.append_nil]
  refine List.filter_congr ?_
  intro i hi
  rw [List.mem_range] at hi
  rw [hpre i hi]
  rfl

/-- Invariant of the graphs occurring during `create_barrier_nodes`, short of
the coverage property: the original nodes are intact, everything appended is
a barrier, edges stay in range, and every barrier has exactly one incoming
edge (from a task index) and one outgoing edge (to a consuming task), both
weighted with its resource UID. -/
structure AccInv (g0 acc : SGraph) : Prop where
  hlen : g0.nodes.length ≤ acc.nodes.length
  hpre : ∀ i, i < g0.nodes.length → acc.nodes.get? i = g0.nodes.get? i
  hup : ∀ i, g0.nodes.length ≤ i → ∀ nd, acc.nodes.get? i = some nd →
    ∃ b, nd = SNode.barrier b
  hbound : ∀ e ∈ acc.edges, e.1 < acc.nodes.length ∧ e.2.1 < acc.nodes.length
  hbar : ∀ m b, acc.nodes.get? m = some (SNode.barrier b) →
    (∃ p, p < g0.nodes.length ∧ inEdges acc m = [(p, m, b.resource.uid)]) ∧
    (∃ c, outEdges acc m = [(m, c, b.resource.uid)] ∧
      c ∈ consumersU g0 b.resource.uid)

theorem barrier_ge (g0 acc : SGraph) (hT : ∀ nd ∈ g0.nodes, nd.isTask = true)
    (hpre : ∀ i, i < g0.nodes.length → acc.nodes.get? i = g0.nodes.get? i)
    (m : Nat) (b : GpuBarrier) (h : acc.nodes.get? m = some (SNode.barrier b)) :
    g0.nodes.length ≤ m := by
  by_contra hlt
  rw [Nat.not_le] at hlt
  rw [hpre m hlt] at h
  have hb := hT _ (List.get?_mem h)
  cases hb

/-- Conditionally remove the first matching edge (the two result shapes of
the trailing `find_edge`/`remove_edge` step of `addBarrierFor`). -/
def dropIf (d : Bool) (es : List (Nat × Nat × Uid)) (a b : Nat) :
    List (Nat × Nat × Uid) :=
  if d then removeFirstEdge es a b else es

theorem dropIf_subset (d : Bool) (es : List (Nat × Nat × Uid)) (a b : Nat) :
    ∀ e ∈ dropIf d es a b, e ∈ es := by
  cases d with
  | false => intro e he; exact he
  | true => exact removeFirstEdge_subset es a b

theorem mem_dropIf (d : Bool) (es : List (Nat × Nat × Uid)) (a b : Nat)
    (e : Nat × Nat × Uid) (he : e ∈ es)
    (hne : (e.1 == a && e.2.1 == b) = false) : e ∈ dropIf d es a b := by
  cases d with
  | false => exact he
  | true => exact mem_removeFirstEdge es a b e he hne

theorem dropIf_filter (d : Bool) (es : List (Nat × Nat × Uid)) (a b : Nat)
    (p : Nat × Nat × Uid → Bool)
    (h : ∀ e, (e.1 == a && e.2.1 == b) = true → p e = false) :
    (dropIf d es a b).filter p = es.filter p := by
  cases d with
  | false => rfl
  | true => exact removeFirstEdge_filter es a b p h

/-- One `addBarrierFor` step: the fresh barrier node is appended, the two
`update_edge` calls really add fresh edges `node → barrier → consumer`, the
direct `node → consumer` edge (if any) is dropped, and everything else —
including every existing barrier's incident edges — is preserved. -/
theorem addBarrierFor_spec (g0 : SGraph) (hT : ∀ nd ∈ g0.nodes, nd.isTask = true)
    (node : Nat) (hnode : node < g0.nodes.length)
    (r : GpuResource) (acc : SGraph) (hinv : AccInv g0 acc)
    (c0 : Nat) (hc0 : c0 ∈ consumersU g0 (GpuResource.uid r)) :
    (addBarrierFor node r acc c0).nodes =
      acc.nodes ++ [SNode.barrier (GpuBarrier.new r)] ∧
    AccInv g0 (addBarrierFor node r acc c0) ∧
    (∀ e ∈ acc.edges, ¬(e.1 = node ∧ e.2.1 = c0) →
      e ∈ (addBarrierFor node r acc c0).edges) ∧
    (∀ m, g0.nodes.length ≤ m → m < acc.nodes.length →
      inEdges (addBarrierFor node r acc c0) m = inEdges acc m ∧
      outEdges (addBarrierFor node r acc c0) m = outEdges acc m) ∧
    (node, acc.nodes.length, GpuResource.uid r) ∈ (addBarrierFor node r acc c0).edges ∧
    (acc.nodes.length, c0, GpuResource.uid r) ∈ (addBarrierFor node r acc c0).edges ∧
    inEdges (addBarrierFor node r acc c0) acc.nodes.length =
      [(node, acc.nodes.length, GpuResource.uid r)] := by
  have hc0N : c0 < g0.nodes.length := ((consumersU_mem g0 _ c0).mp hc0).1
  have hnodeq : node ≠ acc.nodes.length := Nat.ne_of_lt (Nat.lt_of_lt_of_le hnode hinv.hlen)
  have hc0q : c0 ≠ acc.nodes.length := Nat.ne_of_lt (Nat.lt_of_lt_of_le hc0N hinv.hlen)
  obtain ⟨d, hd⟩ : ∃ d, addBarrierFor node r acc c0 =
      { nodes := acc.nodes ++ [SNode.barrier (GpuBarrier.new r)],
        edges := dropIf d
          ((acc.nodes.length, c0, GpuResource.uid r) ::
            (node, acc.nodes.length, GpuResource.uid r) :: acc.edges) node c0 } := by
    unfold addBarrierFor addNode
    dsimp only
    have hfresh1 : findEdge { acc with nodes := acc.nodes ++
        [SNode.barrier (GpuBarrier.new r)] } node acc.nodes.length = none := by
      refine findEdge_eq_none _ _ _ ?_
      rintro e he ⟨h1, h2⟩
      exact absurd ((hinv.hbound e he).2) (by rw [h2]; exact Nat.lt_irrefl _)
    rw [updateEdge_fresh _ _ _ _ hfresh1]
    have hfresh2 : findEdge (addEdge { acc with nodes := acc.nodes ++
        [SNode.barrier (GpuBarrier.new r)] } node acc.nodes.length (GpuResource.uid r))
        acc.nodes.length c0 = none := by
      refine findEdge_eq_none _ _ _ ?_
      rintro e he ⟨h1, h2⟩
      unfold addEdge at he
      rcases List.mem_cons.mp he with hh | hh
      · rw [hh] at h1
        exact hnodeq h1
      · exact absurd ((hinv.hbound e hh).1) (by rw [h1]; exact Nat.lt_irrefl _)
    rw [updateEdge_fresh _ _ _ _ hfresh2]
    unfold addEdge
    dsimp only
    cases hfe : findEdge { nodes := acc.nodes ++ [SNode.barrier (GpuBarrier.new r)], edges := (acc.nodes.length, c0, GpuResource.uid r) :: (node, acc.nodes.length, GpuResource.uid r) :: acc.edges } node c0 with
    | none => exact ⟨false, rfl⟩
    | some e0 => exact ⟨true, rfl⟩
  rw [hd]
  have hlenNN : (acc.nodes ++ [SNode.barrier (GpuBarrier.new r)]).length =
      acc.nodes.length + 1 := by simp
  have hG1 : ∀ i, i < acc.nodes.length →
      (acc.nodes ++ [SNode.barrier (GpuBarrier.new r)]).get? i = acc.nodes.get? i :=
    fun i hi => List.get?_append hi
  have hG2 : (acc.nodes ++ [SNode.barrier (GpuBarrier.new r)]).get? acc.nodes.length =
      some (SNode.barrier (GpuBarrier.new r)) := List.get?_concat_length _ _
  have hG3 : ∀ i, acc.nodes.length < i →
      (acc.nodes ++ [SNode.barrier (GpuBarrier.new r)]).get? i = none := by
    intro i hi
    rw [List.get?_eq_none]
    rw [hlenNN]
    exact hi
  -- the new edge list before the conditional removal
  have hmemF : ∀ e ∈ acc.edges, ¬(e.1 = node ∧ e.2.1 = c0) →
      e ∈ dropIf d ((acc.nodes.length, c0, GpuResource.uid r) ::
        (node, acc.nodes.length, GpuResource.uid r) :: acc.edges) node c0 := by
    intro e he hne
    refine mem_dropIf _ _ _ _ _ (by exact List.mem_cons_of_mem _ (List.mem_cons_of_mem _ he)) ?_
    rw [Bool.eq_false_iff]
    intro hc
    simp only [Bool.and_eq_true, beq_iff_eq] at hc
    exact hne hc
  have hmemNew1 : (node, acc.nodes.length, GpuResource.uid r) ∈
      dropIf d ((acc.nodes.length, c0, GpuResource.uid r) ::
        (node, acc.nodes.length, GpuResource.uid r) :: acc.edges) node c0 := by
    refine mem_dropIf _ _ _ _ _
      (List.mem_cons_of_mem _ (List.mem_cons_self _ _)) ?_
    simp [Ne.symm hc0q]
  have hmemNew2 : (acc.nodes.length, c0, GpuResource.uid r) ∈
      dropIf d ((acc.nodes.length, c0, GpuResource.uid r) ::
        (node, acc.nodes.length, GpuResource.uid r) :: acc.edges) node c0 := by
    refine mem_dropIf _ _ _ _ _ (List.mem_cons_self _ _) ?_
    simp [Ne.symm hnodeq]
  have hfiltIn : ∀ m, g0.nodes.length ≤ m → m < acc.nodes.length →
      (dropIf d ((acc.nodes.length, c0, GpuResource.uid r) ::
        (node, acc.nodes.length, GpuResource.uid r) :: acc.edges) node c0).filter
        (fun e => e.2.1 == m) = acc.edges.filter (fun e => e.2.1 == m) := by
    intro m hmN hmq
    rw [dropIf_filter _ _ _ _ _ ?h]
    case h =>
      intro e hme
      simp only [Bool.and_eq_true, beq_iff_eq] at hme
      have : e.2.1 = c0 := hme.2
      simp [this, Nat.ne_of_lt (Nat.lt_of_lt_of_le hc0N hmN)]
    rw [List.filter_cons, if_neg (by simp [Nat.ne_of_lt (Nat.lt_of_lt_of_le hc0N hmN)])]
    rw [List.filter_cons, if_neg (by simp [Nat.ne_of_gt hmq])]
  have hfiltOut : ∀ m, g0.nodes.length ≤ m → m < acc.nodes.length →
      (dropIf d ((acc.nodes.length, c0, GpuResource.uid r) ::
        (node, acc.nodes.length, GpuResource.uid r) :: acc.edges) node c0).filter
        (fun e => e.1 == m) = acc.edges.filter (fun e => e.1 == m) := by
    intro m hmN hmq
    rw [dropIf_filter _ _ _ _ _ ?h]
    case h =>
      intro e hme
      simp only [Bool.and_eq_true, beq_iff_eq] at hme
      have : e.1 = node := hme.1
      simp [this, Nat.ne_of_lt (Nat.lt_of_lt_of_le hnode hmN)]
    rw [List.filter_cons, if_neg (by simp [Nat.ne_of_gt hmq])]
    rw [List.filter_cons, if_neg (by simp [Nat.ne_of_lt (Nat.lt_of_lt_of_le hnode hmN)])]
  have hfiltInQ :
      (dropIf d ((acc.nodes.length, c0, GpuResource.uid r) ::
        (node, acc.nodes.length, GpuResource.uid r) :: acc.edges) node c0).filter
        (fun e => e.2.1 == acc.nodes.length) =
        [(node, acc.nodes.length, GpuResource.uid r)] := by
    rw [dropIf_filter _ _ _ _ _ ?h]
    case h =>
      intro e hme
      simp only [Bool.and_eq_true, beq_iff_eq] at hme
      simp [hme.2, hc0q]
    rw [List.filter_cons, if_neg (by simp [hc0q])]
    rw [List.filter_cons, if_pos (by simp)]
    rw [List.filter_eq_nil_iff.mpr ?hnil]
    case hnil =>
      intro e he
      simp only [beq_iff_eq]
      exact Nat.ne_of_lt ((hinv.hbound e he).2)
  have hfiltOutQ :
      (dropIf d ((acc.nodes.length, c0, GpuResource.uid r) ::
        (node, acc.nodes.length, GpuResource.uid r) :: acc.edges) node c0).filter
        (fun e => e.1 == acc.nodes.length) =
        [(acc.nodes.length, c0, GpuResource.uid r)] := by
    rw [dropIf_filter _ _ _ _ _ ?h]
    case h =>
      intro e hme
      simp only [Bool.and_eq_true, beq_iff_eq] at hme
      simp [hme.1, hnodeq]
    rw [List.filter_cons, if_pos (by simp)]
    rw [List.filter_cons, if_neg (by simp [hnodeq])]
    rw [List.filter_eq_nil_iff.mpr ?hnil]
    case hnil =>
      intro e he
      simp only [beq_iff_eq]
      exact Nat.ne_of_lt ((hinv.hbound e he).1)
  refine ⟨rfl, ?_, ?_, ?_, ?_, ?_, ?_⟩
  · refine ⟨?_, ?_, ?_, ?_, ?_⟩
    · dsimp only
      rw [hlenNN]
      exact Nat.le_succ_of_le hinv.hlen
    · intro i hi
      dsimp only
      rw [hG1 i (Nat.lt_of_lt_of_le hi hinv.hlen)]
      exact hinv.hpre i hi
    · intro i hiN nd hnd
      dsimp only at hnd
      rcases Nat.lt_trichotomy i acc.nodes.length with hlt | heq | hgt
      · rw [hG1 i hlt] at hnd
        exact hinv.hup i hiN nd hnd
      · rw [heq, hG2] at hnd
        exact ⟨GpuBarrier.new r, by injection hnd with h; rw [← h]⟩
      · rw [hG3 i hgt] at hnd
        cases hnd
    · intro e he
      dsimp only at he ⊢
      rw [hlenNN]
      have hsub := dropIf_subset d _ node c0 e he
      rcases List.mem_cons.mp hsub with h1 | h1
      · rw [h1]
        exact ⟨Nat.lt_succ_self _, Nat.lt_succ_of_lt (Nat.lt_of_lt_of_le hc0N hinv.hlen)⟩
      · rcases List.mem_cons.mp h1 with h2 | h2
        · rw [h2]
          exact ⟨Nat.lt_succ_of_lt (Nat.lt_of_lt_of_le hnode hinv.hlen), Nat.lt_succ_self _⟩
        · obtain ⟨hb1, hb2⟩ := hinv.hbound e h2
          exact ⟨Nat.lt_succ_of_lt hb1, Nat.lt_succ_of_lt hb2⟩
    · intro m b hmb
      dsimp only at hmb
      rcases Nat.lt_trichotomy m acc.nodes.length with hlt | heq | hgt
      · rw [hG1 m hlt] at hmb
        have hmN : g0.nodes.length ≤ m := barrier_ge g0 acc hT hinv.hpre m b hmb
        obtain ⟨⟨p, hpN, hpin⟩, ⟨c, hcout, hcmem⟩⟩ := hinv.hbar m b hmb
        constructor
        · exact ⟨p, hpN, by
            show (dropIf d _ node c0).filter (fun e => e.2.1 == m) = _
            rw [hfiltIn m hmN hlt]
            exact hpin⟩
        · exact ⟨c, by
            show (dropIf d _ node c0).filter (fun e => e.1 == m) = _
            rw [hfiltOut m hmN hlt]
            exact hcout, hcmem⟩
      · rw [heq, hG2] at hmb
        have hbnew : b = GpuBarrier.new r := by injection hmb with h; injection h with h2; rw [h2]
        constructor
        · refine ⟨node, hnode, ?_⟩
          show (dropIf d _ node c0).filter (fun e => e.2.1 == m) = _
          rw [heq, hfiltInQ, hbnew]
          rfl
        · refine ⟨c0, ?_, ?_⟩
          · show (dropIf d _ node c0).filter (fun e => e.1 == m) = _
            rw [heq, hfiltOutQ, hbnew]
            rfl
          · rw [hbnew]
            exact hc0
      · rw [hG3 m hgt] at hmb
        cases hmb
  · intro e he hne
    exact hmemF e he hne
  · intro m hmN hmq
    exact ⟨hfiltIn m hmN hmq, hfiltOut m hmN hmq⟩
  · exact hmemNew1
  · exact hmemNew2
  · show (dropIf d _ node c0).filter (fun e => e.2.1 == acc.nodes.length) = _
    exact hfiltInQ

/-- The consumer fold of one output in `create_barrier_nodes`: the invariant
is maintained, old nodes and barrier-incident edges persist, every appended
node is a barrier over the processed resource, and every consumer in the
list ends up wired `node → barrier → consumer`. -/
theorem consFold_spec (g0 : SGraph) (hT : ∀ nd ∈ g0.nodes, nd.isTask = true)
    (node : Nat) (hnode : node < g0.nodes.length) (r : GpuResource) :
    ∀ (cs : List Nat) (acc : SGraph),
      (∀ c ∈ cs, c ∈ consumersU g0 (GpuResource.uid r)) → AccInv g0 acc →
      AccInv g0 (cs.foldl (addBarrierFor node r) acc) ∧
      (∀ i nd, acc.nodes.get? i = some nd →
        (cs.foldl (addBarrierFor node r) acc).nodes.get? i = some nd) ∧
      (∀ i nd, (cs.foldl (addBarrierFor node r) acc).nodes.get? i = some nd →
        acc.nodes.get? i = some nd ∨ nd = SNode.barrier (GpuBarrier.new r)) ∧
      (∀ e ∈ acc.edges, g0.nodes.length ≤ e.1 ∨ g0.nodes.length ≤ e.2.1 →
        e ∈ (cs.foldl (addBarrierFor node r) acc).edges) ∧
      (∀ m, g0.nodes.length ≤ m → m < acc.nodes.length →
        inEdges (cs.foldl (addBarrierFor node r) acc) m = inEdges acc m ∧
        outEdges (cs.foldl (addBarrierFor node r) acc) m = outEdges acc m) ∧
      (∀ c ∈ cs, ∃ q, g0.nodes.length ≤ q ∧
        (cs.foldl (addBarrierFor node r) acc).nodes.get? q =
          some (SNode.barrier (GpuBarrier.new r)) ∧
        (node, q, GpuResource.uid r) ∈ (cs.foldl (addBarrierFor node r) acc).edges ∧
        (q, c, GpuResource.uid r) ∈ (cs.foldl (addBarrierFor node r) acc).edges) ∧
      (∀ m b, acc.nodes.length ≤ m →
        (cs.foldl (addBarrierFor node r) acc).nodes.get? m =
          some (SNode.barrier b) →
        inEdges (cs.foldl (addBarrierFor node r) acc) m =
          [(node, m, b.resource.uid)]) := by
  intro cs
  induction cs with
  | nil =>
    intro acc hcs hinv
    refine ⟨hinv, fun i nd h => h, fun i nd h => Or.inl h, fun e he _ => he,
      fun m _ _ => ⟨rfl, rfl⟩, ?_, ?_⟩
    · intro c hc
      cases hc
    · intro m b hm hmb
      have hlt := (List.get?_eq_some.mp hmb).1
      exact absurd hlt (Nat.not_lt.mpr hm)
  | cons c0 cs ih =>
    intro acc hcs hinv
    have hc0 : c0 ∈ consumersU g0 (GpuResource.uid r) := hcs c0 (List.mem_cons_self _ _)
    obtain ⟨s1, s2, s3, s4, s5, s6, s7⟩ :=
      addBarrierFor_spec g0 hT node hnode r acc hinv c0 hc0
    obtain ⟨F1, F2, F3, F4, F5, F6, F7⟩ :=
      ih (addBarrierFor node r acc c0) (fun c hc => hcs c (List.mem_cons_of_mem _ hc)) s2
    have hpersist : ∀ i nd, acc.nodes.get? i = some nd →
        (addBarrierFor node r acc c0).nodes.get? i = some nd := by
      intro i nd h
      have hlt : i < acc.nodes.length := (List.get?_eq_some.mp h).1
      rw [s1, List.get?_append hlt]
      exact h
    have hc0N : c0 < g0.nodes.length := ((consumersU_mem g0 _ c0).mp hc0).1
    rw [List.foldl_cons]
    refine ⟨F1, ?_, ?_, ?_, ?_, ?_, ?_⟩
    · intro i nd h
      exact F2 i nd (hpersist i nd h)
    · intro i nd h
      rcases F3 i nd h with h1 | h1
      · rw [s1] at h1
        rcases Nat.lt_trichotomy i acc.nodes.length with hlt | heq | hgt
        · rw [List.get?_append hlt] at h1
          exact Or.inl h1
        · rw [heq, List.get?_concat_length] at h1
          injection h1 with h2
          exact Or.inr h2.symm
        · rw [List.get?_eq_none.mpr (by simp; exact hgt)] at h1
          cases h1
      · exact Or.inr h1
    · intro e he hside
      have hne : ¬(e.1 = node ∧ e.2.1 = c0) := by
        rintro ⟨h1, h2⟩
        rcases hside with h | h
        · rw [h1] at h
          exact absurd hnode (Nat.not_lt.mpr h)
        · rw [h2] at h
          exact absurd hc0N (Nat.not_lt.mpr h)
      exact F4 e (s3 e he hne) hside
    · intro m hmN hmlt
      have hmlt1 : m < (addBarrierFor node r acc c0).nodes.length := by
        rw [s1]
        simp
        exact Nat.lt_succ_of_lt hmlt
      obtain ⟨hf1, hf2⟩ := F5 m hmN hmlt1
      obtain ⟨hg1, hg2⟩ := s4 m hmN hmlt
      exact ⟨by rw [hf1, hg1], by rw [hf2, hg2]⟩
    · intro c hc
      rcases List.mem_cons.mp hc with hceq | hcmem
      · refine ⟨acc.nodes.length, hinv.hlen, ?_, ?_, ?_⟩
        · refine F2 _ _ ?_
          rw [s1]
          exact List.get?_concat_length _ _
        · refine F4 _ s5 ?_
          exact Or.inr hinv.hlen
        · rw [hceq]
          refine F4 _ s6 ?_
          exact Or.inl hinv.hlen
      · exact F6 c hcmem
    · intro m b hm hmb
      rcases Nat.lt_or_ge m (addBarrierFor node r acc c0).nodes.length with hlt | hge
      · have hmeq : m = acc.nodes.length := by
          rw [s1] at hlt
          simp at hlt
          omega
        have hA1 : (addBarrierFor node r acc c0).nodes.get? m =
            some (SNode.barrier (GpuBarrier.new r)) := by
          rw [hmeq, s1]
          exact List.get?_concat_length _ _
        have hfold := F2 _ _ hA1
        have hbnew : b = GpuBarrier.new r := by
          rw [hmb] at hfold
          injection hfold with h
          injection h with h2
        have hmN : g0.nodes.length ≤ m := hmeq ▸ hinv.hlen
        have hin1 := (F5 m hmN hlt).1
        rw [hin1, hmeq, s7, hbnew]
        rfl
      · exact F7 m b hge hmb

/-- Full invariant of `create_barrier_nodes`: the structural invariant plus
coverage — whenever a producer `p` feeds a barrier over a UID, it feeds a
barrier to every consumer of that UID. -/
structure BarInv (g0 acc : SGraph) : Prop where
  base : AccInv g0 acc
  hcov : ∀ m b p, acc.nodes.get? m = some (SNode.barrier b) →
    (p, m, b.resource.uid) ∈ acc.edges →
    ∀ c ∈ consumersU g0 b.resource.uid, ∃ m' b',
      acc.nodes.get? m' = some (SNode.barrier b') ∧
      b'.resource.uid = b.resource.uid ∧
      (p, m', b'.resource.uid) ∈ acc.edges ∧
      (m', c, b'.resource.uid) ∈ acc.edges

/-- The per-task output loop of `create_barrier_nodes` maintains the full
invariant. -/
theorem processOutputs_spec (g0 : SGraph) (hT : ∀ nd ∈ g0.nodes, nd.isTask = true)
    (node : Nat) (hnode : node < g0.nodes.length) :
    ∀ (outs : List GpuResource) (acc : SGraph), BarInv g0 acc →
      BarInv g0 (processOutputs node outs acc) := by
  intro outs
  induction outs with
  | nil => exact fun acc h => h
  | cons r rest ih =>
    intro acc hinv
    show BarInv g0 (processOutputs node (r :: rest) acc)
    unfold processOutputs
    dsimp only
    by_cases he : (consumersOf acc r).isEmpty = true
    · rw [if_pos he]
      exact hinv
    · rw [if_neg he]
      have hstable : consumersOf acc r = consumersU g0 (GpuResource.uid r) :=
        consumersOf_stable g0 acc hinv.base.hlen hinv.base.hpre hinv.base.hup r
      have hcs : ∀ c ∈ consumersOf acc r, c ∈ consumersU g0 (GpuResource.uid r) := by
        rw [hstable]
        exact fun c h => h
      obtain ⟨F1, F2, F3, F4, F5, F6, F7⟩ :=
        consFold_spec g0 hT node hnode r (consumersOf acc r) acc hcs hinv.base
      refine ih _ ⟨F1, ?_⟩
      intro m b p hmb hpe c hcmem
      by_cases hmlt : m < acc.nodes.length
      · -- an already existing barrier: its coverage witnesses persist
        obtain ⟨nd0, hnd0⟩ : ∃ nd0, acc.nodes.get? m = some nd0 := by
          cases hg : acc.nodes.get? m with
          | none =>
            rw [List.get?_eq_none] at hg
            exact absurd hmlt (Nat.not_lt.mpr hg)
          | some nd0 => exact ⟨nd0, rfl⟩
        have hold : acc.nodes.get? m = some (SNode.barrier b) := by
          have := F2 m nd0 hnd0
          rw [hmb] at this
          injection this with h
          rw [hnd0, h]
        have hmN : g0.nodes.length ≤ m :=
          barrier_ge g0 acc hT hinv.base.hpre m b hold
        have hin := (F5 m hmN hmlt).1
        have hpe0 : (p, m, b.resource.uid) ∈ acc.edges := by
          have hmemin : (p, m, b.resource.uid) ∈
              inEdges ((consumersOf acc r).foldl (addBarrierFor node r) acc) m := by
            unfold inEdges
            rw [List.mem_filter]
            exact ⟨hpe, by simp⟩
          rw [hin] at hmemin
          unfold inEdges at hmemin
          exact (List.mem_filter.mp hmemin).1
        obtain ⟨m', b', hb1, hb2, hb3, hb4⟩ := hinv.hcov m b p hold hpe0 c hcmem
        have hm'N : g0.nodes.length ≤ m' :=
          barrier_ge g0 acc hT hinv.base.hpre m' b' hb1
        exact ⟨m', b', F2 _ _ hb1, hb2,
          F4 _ hb3 (Or.inr hm'N), F4 _ hb4 (Or.inl hm'N)⟩
      · -- a barrier added in this round: its producer is `node` and the
        -- round covered every consumer of `r`
        have hge : acc.nodes.length ≤ m := Nat.not_lt.mp hmlt
        have hbnew : b = GpuBarrier.new r := by
          rcases F3 m (SNode.barrier b) hmb with h1 | h1
          · exact absurd (List.get?_eq_some.mp h1).1 hmlt
          · injection h1 with h2
        have hin := F7 m b hge hmb
        have hpnode : p = node := by
          have hmemin : (p, m, b.resource.uid) ∈
              inEdges ((consumersOf acc r).foldl (addBarrierFor node r) acc) m := by
            unfold inEdges
            rw [List.mem_filter]
            exact ⟨hpe, by simp⟩
          rw [hin] at hmemin
          have := List.mem_singleton.mp hmemin
          injection this with h1 h2
        have hcr : c ∈ consumersOf acc r := by
          rw [hstable]
          rw [hbnew] at hcmem
          exact hcmem
        obtain ⟨q, hqN, hqnode, hqe1, hqe2⟩ := F6 c hcr
        refine ⟨q, GpuBarrier.new r, hqnode, by rw [hbnew], ?_, ?_⟩
        · rw [hpnode]
          exact hqe1
        · exact hqe2

/-- `create_barrier_nodes` establishes the full invariant over any graph of
tasks with in-range edges. -/
theorem createBarrierNodes_spec (g0 : SGraph)
    (hT : ∀ nd ∈ g0.nodes, nd.isTask = true)
    (hE : ∀ e ∈ g0.edges, e.1 < g0.nodes.length ∧ e.2.1 < g0.nodes.length) :
    BarInv g0 (createBarrierNodes g0) := by
  have hmain : ∀ (l : List Nat), (∀ x ∈ l, x < g0.nodes.length) →
      ∀ acc, BarInv g0 acc →
      BarInv g0 (l.foldl (fun acc node =>
        match acc.nodes.get? node with
        | some (.task t) => processOutputs node t.outputs acc
        | _ => acc) acc) := by
    intro l
    induction l with
    | nil => exact fun _ acc h => h
    | cons x l ih =>
      intro hl acc hinv
      rw [List.foldl_cons]
      refine ih (fun y hy => hl y (List.mem_cons_of_mem _ hy)) _ ?_
      cases hg : acc.nodes.get? x with
      | none => exact hinv
      | some nd =>
        cases nd with
        | task t =>
          exact processOutputs_spec g0 hT x (hl x (List.mem_cons_self _ _))
            t.outputs acc hinv
        | barrier b => exact hinv
  have hinit : BarInv g0 g0 := by
    have hnobar : ∀ m b, g0.nodes.get? m = some (SNode.barrier b) → False := by
      intro m b h
      have := hT _ (List.get?_mem h)
      cases this
    refine ⟨⟨Nat.le_refl _, fun i _ => rfl, ?_, hE, ?_⟩, ?_⟩
    · intro i hiN nd hnd
      exact absurd (List.get?_eq_some.mp hnd).1 (Nat.not_lt.mpr hiN)
    · intro m b h
      exact absurd h (fun h => hnobar m b h)
    · intro m b p h
      exact absurd h (fun h => hnobar m b h)
  exact hmain (List.range g0.nodes.length) (fun x hx => List.mem_range.mp hx) g0 hinit

/-- Under the create invariant, a barrier's destination resource is the first
matching input of its (unique) consumer. -/
theorem barrier_dst_of_inv (g0 g : SGraph) (hinv : AccInv g0 g) (m : Nat)
    (b : GpuBarrier) (hm : g.nodes.get? m = some (SNode.barrier b)) :
    ∃ c, outEdges g m = [(m, c, b.resource.uid)] ∧
      c ∈ consumersU g0 b.resource.uid ∧
      barrier_dst_resource g m = firstInputOver g0 c b.resource.uid ∧
      (barrier_dst_resource g m).isSome = true := by
  obtain ⟨_, ⟨c, hout, hcmem⟩⟩ := hinv.hbar m b hm
  obtain ⟨hcN, t, hct, hany⟩ := (consumersU_mem g0 _ c).mp hcmem
  have hgc : g.nodes.get? c = some (SNode.task t) := by
    rw [hinv.hpre c hcN]
    exact hct
  have hdst : barrier_dst_resource g m =
      t.inputs.find? (fun input => input.uid == b.resource.uid) := by
    unfold barrier_dst_resource
    rw [hm]
    dsimp only
    rw [hout]
    dsimp only
    rw [hgc]
  have hfio : firstInputOver g0 c b.resource.uid =
      t.inputs.find? (fun input => input.uid == b.resource.uid) := by
    unfold firstInputOver
    rw [hct]
  refine ⟨c, hout, hcmem, by rw [hdst, hfio], ?_⟩
  rw [hdst]
  rw [List.find?_isSome]
  rw [List.any_eq_true] at hany
  obtain ⟨x, hx1, hx2⟩ := hany
  exact ⟨x, hx1, hx2⟩

/-- `writeFlags` rewrites every barrier's destination flags from the table
and keeps everything else. -/
theorem writeFlags_spec (flags : List (Nat × Nat × Nat)) :
    ∀ (l : List SNode) (i : Nat) (ns : List SNode), writeFlags flags l i = some ns →
      ∀ k, (∃ t, l.get? k = some (SNode.task t) ∧ ns.get? k = some (SNode.task t)) ∨
        (∃ b fl, l.get? k = some (SNode.barrier b) ∧
          flagsGet flags (i + k) = some fl ∧
          ns.get? k = some (SNode.barrier
            { b with dst_stage := fl.1, dst_access := fl.2 })) ∨
        (l.get? k = none ∧ ns.get? k = none) := by
  intro l
  induction l with
  | nil =>
    intro i ns h k
    have hns : ns = [] := by
      injection h with h1
      rw [← h1]
    rw [hns]
    exact Or.inr (Or.inr ⟨rfl, rfl⟩)
  | cons nd rest ih =>
    intro i ns h k
    cases nd with
    | task t =>
      unfold writeFlags at h
      cases hrec : writeFlags flags rest (i + 1) with
      | none => rw [hrec] at h; cases h
      | some ns' =>
        rw [hrec] at h
        have hns : ns = SNode.task t :: ns' := by
          injection h with h1
          rw [← h1]
        rw [hns]
        cases k with
        | zero => exact Or.inl ⟨t, rfl, rfl⟩
        | succ k =>
          have hadd : i + 1 + k = i + (k + 1) := by omega
          have := ih (i + 1) ns' hrec k
          rw [hadd] at this
          exact this
    | barrier b =>
      unfold writeFlags at h
      cases hfl : flagsGet flags i with
      | none => rw [hfl] at h; cases h
      | some fl =>
        rw [hfl] at h
        cases hrec : writeFlags flags rest (i + 1) with
        | none => rw [hrec] at h; cases h
        | some ns' =>
          rw [hrec] at h
          have hns : ns = SNode.barrier
              { b with dst_stage := fl.1, dst_access := fl.2 } :: ns' := by
            injection h with h1
            rw [← h1]
          rw [hns]
          cases k with
          | zero =>
            refine Or.inr (Or.inl ⟨b, fl, rfl, ?_, rfl⟩)
            rw [Nat.add_zero]
            exact hfl
          | succ k =>
            have hadd : i + 1 + k = i + (k + 1) := by omega
            have := ih (i + 1) ns' hrec k
            rw [hadd] at this
            exact this

theorem updateEdge_nodes (g : SGraph) (a b : Nat) (w : Uid) :
    (updateEdge g a b w).nodes = g.nodes := by
  unfold updateEdge
  split
  · rfl
  · rfl

theorem foldl_updateEdge_nodes (l : List (Nat × Nat × Uid)) :
    ∀ g : SGraph,
      (l.foldl (fun acc e => updateEdge acc e.1 e.2.1 e.2.2) g).nodes = g.nodes := by
  induction l with
  | nil => intro g; rfl
  | cons e l ih =>
    intro g
    rw [List.foldl_cons, ih, updateEdge_nodes]

/-- Every node of a `retain_nodes` result is an original node at a kept
index: the reverse sweep only ever moves already-kept occupants down. -/
theorem retainNodes_mem (g : SGraph) (keep : Nat → Bool) :
    ∀ i nd, (retainNodes g keep).nodes.get? i = some nd →
      ∃ j, keep j = true ∧ g.nodes.get? j = some nd := by
  have haux : ∀ (j : Nat), j ≤ g.nodes.length → ∀ acc : SGraph,
      (∀ i, i < j → acc.nodes.get? i = g.nodes.get? i) →
      (∀ i nd, acc.nodes.get? i = some nd →
        i < j ∨ ∃ j', keep j' = true ∧ g.nodes.get? j' = some nd) →
      ∀ i nd, ((List.range j).reverse.foldl
          (fun acc i => if keep i then acc else removeNodeSwap acc i) acc).nodes.get? i =
          some nd →
        ∃ j', keep j' = true ∧ g.nodes.get? j' = some nd := by
    intro j
    induction j with
    | zero =>
      intro _ acc _ hsecond i nd h
      rcases hsecond i nd h with h1 | h1
      · exact absurd h1 (Nat.not_lt_zero i)
      · exact h1
    | succ j ih =>
      intro hj acc hfirst hsecond i nd h
      rw [List.range_succ, List.reverse_append] at h
      dsimp only [List.reverse_singleton, List.singleton_append] at h
      rw [List.foldl_cons] at h
      by_cases hk : keep j = true
      · rw [if_pos hk] at h
        refine ih (Nat.le_of_succ_le hj) acc
          (fun i hi => hfirst i (Nat.lt_succ_of_lt hi)) ?_ i nd h
        intro i2 nd2 h2
        rcases hsecond i2 nd2 h2 with h3 | h3
        · rcases Nat.lt_succ_iff_lt_or_eq.mp h3 with h4 | h4
          · exact Or.inl h4
          · refine Or.inr ⟨j, hk, ?_⟩
            rw [← h4, ← hfirst i2 h3]
            exact h2
        · exact Or.inr h3
      · rw [if_neg hk] at h
        have hjlen : j < g.nodes.length := hj
        have haccj : acc.nodes.get? j = g.nodes.get? j := hfirst j (Nat.lt_succ_self j)
        obtain ⟨ndj, hndj⟩ : ∃ ndj, g.nodes.get? j = some ndj := by
          cases hg : g.nodes.get? j with
          | none =>
            rw [List.get?_eq_none] at hg
            exact absurd hjlen (Nat.not_lt.mpr hg)
          | some x => exact ⟨x, rfl⟩
        have hjacclen : j < acc.nodes.length := by
          have : acc.nodes.get? j = some ndj := by rw [haccj]; exact hndj
          exact (List.get?_eq_some.mp this).1
        have haccne : acc.nodes ≠ [] := by
          intro hc
          rw [hc] at hjacclen
          exact absurd hjacclen (by simp)
        obtain ⟨ln, hln⟩ : ∃ ln, acc.nodes.getLast? = some ln :=
          ⟨acc.nodes.getLast haccne, List.getLast?_eq_getLast _ haccne⟩
        have hlnget : acc.nodes.get? (acc.nodes.length - 1) = some ln := by
          rw [← List.getLast?_eq_get?]
          exact hln
        have hrns : (removeNodeSwap acc j).nodes = (acc.nodes.set j ln).dropLast := by
          unfold removeNodeSwap
          rw [hln]
        refine ih (Nat.le_of_succ_le hj) (removeNodeSwap acc j) ?_ ?_ i nd h
        · intro i2 hi2
          rw [hrns, List.dropLast_eq_take]
          have hi2len : i2 < (acc.nodes.set j ln).length - 1 := by
            rw [List.length_set]
            omega
          rw [List.get?_take hi2len]
          rw [List.get?_set_ne ln acc.nodes (by omega)]
          exact hfirst i2 (Nat.lt_succ_of_lt hi2)
        · intro i2 nd2 h2
          rw [hrns, List.dropLast_eq_take] at h2
          by_cases hi2len : i2 < (acc.nodes.set j ln).length - 1
          · rw [List.get?_take hi2len] at h2
            by_cases hij : i2 = j
            · have hsetj : (acc.nodes.set j ln).get? j = some ln := by
                rw [List.get?_set_eq]
                have : acc.nodes.get? j = some ndj := by rw [haccj]; exact hndj
                rw [this]
                rfl
              rw [hij] at h2
              rw [hsetj] at h2
              have hnd2 : nd2 = ln := by injection h2 with h3; exact h3.symm
              rcases hsecond (acc.nodes.length - 1) ln hlnget with h3 | h3
              · rw [List.length_set] at hi2len
                omega
              · rw [hnd2]
                exact Or.inr h3
            · rw [List.get?_set_ne ln acc.nodes (fun hc => hij hc.symm)] at h2
              rcases hsecond i2 nd2 h2 with h3 | h3
              · rcases Nat.lt_succ_iff_lt_or_eq.mp h3 with h4 | h4
                · exact Or.inl h4
                · exact absurd h4 hij
              · exact Or.inr h3
          · rw [List.get?_eq_none.mpr (by rw [List.length_take]; omega)] at h2
            cases h2
  intro i nd h
  refine haux g.nodes.length (Nat.le_refl _) g (fun _ _ => rfl) ?_ i nd h
  intro i2 nd2 h2
  exact Or.inl (List.get?_eq_some.mp h2).1

/-- Componentwise bitwise or on (stage, access) pairs. -/
def pOr (a b : Nat × Nat) : Nat × Nat := (a.1 ||| b.1, a.2 ||| b.2)

theorem orPair_eq_pOr (a b : Nat × Nat) : orPair a b = pOr a b := by
  show (b.1 ||| a.1, b.2 ||| a.2) = (a.1 ||| b.1, a.2 ||| b.2)
  rw [Nat.lor_comm b.1 a.1, Nat.lor_comm b.2 a.2]

theorem pOr_zero (a : Nat × Nat) : pOr a (0, 0) = a := by
  show (a.1 ||| 0, a.2 ||| 0) = a
  rw [Nat.or_zero, Nat.or_zero]

theorem zero_pOr (a : Nat × Nat) : pOr (0, 0) a = a := by
  show ((0 : Nat) ||| a.1, (0 : Nat) ||| a.2) = a
  rw [Nat.zero_or, Nat.zero_or]

theorem pOr_assoc (a b c : Nat × Nat) : pOr (pOr a b) c = pOr a (pOr b c) := by
  show (a.1 ||| b.1 ||| c.1, a.2 ||| b.2 ||| c.2) = _
  rw [Nat.lor_assoc, Nat.lor_assoc]
  rfl

theorem pOr_comm (a b : Nat × Nat) : pOr a b = pOr b a := by
  show (a.1 ||| b.1, a.2 ||| b.2) = (b.1 ||| a.1, b.2 ||| a.2)
  rw [Nat.lor_comm a.1 b.1, Nat.lor_comm a.2 b.2]

theorem pOr_self (a : Nat × Nat) : pOr a a = a := by
  show (a.1 ||| a.1, a.2 ||| a.2) = a
  rw [Nat.or_self, Nat.or_self]

theorem pOr_left_comm (a b c : Nat × Nat) : pOr a (pOr b c) = pOr b (pOr a c) := by
  rw [← pOr_assoc, pOr_comm a b, pOr_assoc]

theorem pOr_idem_left (a c : Nat × Nat) : pOr a (pOr a c) = pOr a c := by
  rw [← pOr_assoc, pOr_self]

/-- The or of a list of (stage, access) contributions. -/
def orFold (l : List (Nat × Nat)) : Nat × Nat := l.foldl orPair (0, 0)

theorem foldl_orPair_eq (l : List (Nat × Nat)) :
    ∀ a, l.foldl orPair a = pOr a (orFold l) := by
  induction l with
  | nil => intro a; exact (pOr_zero a).symm
  | cons x l ih =>
    intro a
    rw [List.foldl_cons, ih (orPair a x)]
    have hR : orFold (x :: l) = pOr x (orFold l) := by
      show (x :: l).foldl orPair (0, 0) = _
      rw [List.foldl_cons, ih (orPair (0, 0) x), orPair_eq_pOr, zero_pOr]
    rw [hR, orPair_eq_pOr, pOr_assoc]

theorem orFold_cons (x : Nat × Nat) (l : List (Nat × Nat)) :
    orFold (x :: l) = pOr x (orFold l) := by
  show (x :: l).foldl orPair (0, 0) = _
  rw [List.foldl_cons, foldl_orPair_eq l (orPair (0, 0) x), orPair_eq_pOr, zero_pOr]

theorem orFold_absorb (l : List (Nat × Nat)) (x : Nat × Nat) (hx : x ∈ l) :
    pOr x (orFold l) = orFold l := by
  induction l with
  | nil => cases hx
  | cons y l ih =>
    rw [orFold_cons]
    rcases List.mem_cons.mp hx with h | h
    · rw [h, pOr_idem_left]
    · rw [pOr_left_comm, ih h]

theorem orFold_subset (l1 l2 : List (Nat × Nat)) (h : ∀ x ∈ l1, x ∈ l2) :
    pOr (orFold l1) (orFold l2) = orFold l2 := by
  induction l1 with
  | nil =>
    show pOr (orFold []) (orFold l2) = orFold l2
    exact zero_pOr _
  | cons x l1 ih =>
    rw [orFold_cons, pOr_assoc, ih (fun y hy => h y (List.mem_cons_of_mem _ hy)),
      orFold_absorb l2 x (h x (List.mem_cons_self _ _))]

theorem orFold_congr (l1 l2 : List (Nat × Nat)) (h12 : ∀ x ∈ l1, x ∈ l2)
    (h21 : ∀ x ∈ l2, x ∈ l1) : orFold l1 = orFold l2 := by
  have h1 := orFold_subset l1 l2 h12
  have h2 := orFold_subset l2 l1 h21
  rw [← h1, pOr_comm, h2]

theorem classOr_eq_orFold (g : SGraph) (u : Uid)
    (hwf : ∀ nb ∈ classOf g u, (dstStAc g nb.1).isSome = true) :
    classOr g u = orFold ((classOf g u).filterMap (fun nb => dstStAc g nb.1)) := by
  unfold classOr
  cases hcl : classOf g u with
  | nil => rfl
  | cons h t =>
    obtain ⟨dh, hdh⟩ := Option.isSome_iff_exists.mp
      (hwf h (by rw [hcl]; exact List.mem_cons_self _ _))
    rw [List.filterMap_cons, hdh]
    dsimp only
    rw [hdh, foldl_orPair_eq, orFold_cons]
    rfl

/-- The destination (stage, access) contributions of the barriers over `u`
fed by producer `p` — the consumer inputs "reached from `p` through a barrier
over `u`". -/
def reachedDsts (g : SGraph) (p : Nat) (u : Uid) : List (Nat × Nat) :=
  ((barriersOf g).filter (fun nb => nb.2.resource.uid == u &&
    (inEdges g nb.1).any (fun e => e.1 == p))).filterMap (fun nb => dstStAc g nb.1)

/-- Over a `create_barrier_nodes` graph, the class-wide or that the merge
accumulates equals the or over the consumers reached from any single
producer of the class: coverage makes every producer reach every consumer. -/
theorem orFold_class_eq_reached (g0 g : SGraph) (hinv : BarInv g0 g) (u : Uid)
    (p i0 : Nat) (b0 : GpuBarrier) (hmem : (i0, b0) ∈ barriersOf g)
    (huid : b0.resource.uid = u)
    (hedge : (p, i0, b0.resource.uid) ∈ g.edges) :
    orFold ((classOf g u).filterMap (fun nb => dstStAc g nb.1)) =
      orFold (reachedDsts g p u) := by
  refine orFold_congr _ _ ?_ ?_
  · intro x hx
    obtain ⟨nb, hnbc, hnbx⟩ := List.mem_filterMap.mp hx
    obtain ⟨hnbbs, hnbu⟩ := (classOf_mem g u nb).mp hnbc
    have hnbget : g.nodes.get? nb.1 = some (SNode.barrier nb.2) :=
      (barriersOf_mem g nb.1 nb.2).mp (by
        have : nb = (nb.1, nb.2) := rfl
        rw [← this]
        exact hnbbs)
    obtain ⟨c, hout, hcmem, hdst, _⟩ := barrier_dst_of_inv g0 g hinv.base nb.1 nb.2 hnbget
    have hi0get : g.nodes.get? i0 = some (SNode.barrier b0) :=
      (barriersOf_mem g i0 b0).mp hmem
    have hcmem' : c ∈ consumersU g0 b0.resource.uid := by
      rw [huid, ← hnbu]
      exact hcmem
    obtain ⟨m', b', hm'get, hb'uid, hpe', hce'⟩ :=
      hinv.hcov i0 b0 p hi0get hedge c hcmem'
    obtain ⟨c'', hout', _, hdst', _⟩ := barrier_dst_of_inv g0 g hinv.base m' b' hm'get
    have hcc : c'' = c := by
      have hmemout : (m', c, b'.resource.uid) ∈ outEdges g m' := by
        unfold outEdges
        rw [List.mem_filter]
        exact ⟨hce', by simp⟩
      rw [hout'] at hmemout
      have := List.mem_singleton.mp hmemout
      injection this with h1 h2
      injection h2 with h3 h4
      exact h3.symm
    have hdsame : dstStAc g m' = dstStAc g nb.1 := by
      unfold dstStAc
      rw [hdst', hdst, hcc, hb'uid, huid, hnbu]
    refine List.mem_filterMap.mpr ⟨(m', b'), ?_, ?_⟩
    · rw [List.mem_filter]
      refine ⟨?_, ?_⟩
      · have : (m', b') = ((m', b').1, (m', b').2) := rfl
        exact (barriersOf_mem g m' b').mpr hm'get
      · rw [Bool.and_eq_true]
        constructor
        · show (b'.resource.uid == u) = true
          rw [hb'uid, huid]
          simp
        · rw [List.any_eq_true]
          refine ⟨(p, m', b'.resource.uid), ?_, by simp⟩
          unfold inEdges
          rw [List.mem_filter]
          exact ⟨hpe', by simp⟩
    · show dstStAc g m' = some x
      rw [hdsame]
      exact hnbx
  · intro x hx
    obtain ⟨nb, hnbf, hnbx⟩ := List.mem_filterMap.mp hx
    rw [List.mem_filter] at hnbf
    obtain ⟨hnbbs, hpred⟩ := hnbf
    rw [Bool.and_eq_true] at hpred
    refine List.mem_filterMap.mpr ⟨nb, ?_, hnbx⟩
    refine (classOf_mem g u nb).mpr ⟨hnbbs, by simpa using hpred.1⟩

/-- Claim C4 (confirmed): after `merge_identical_barriers` succeeds on a
`create_barrier_nodes` graph, every surviving barrier node `B` carries as
`dst_stage`/`dst_access` the bitwise or of the stages and access masks of
every consumer task input originally reached through a barrier over `B`'s
resource UID from the same producer — stated for every producer `p` feeding
a barrier of that UID class, hence in particular for `B`'s own producer. -/
theorem merge_access_union_per_producer (g0 : SGraph)
    (hT : ∀ nd ∈ g0.nodes, nd.isTask = true)
    (hE : ∀ e ∈ g0.edges, e.1 < g0.nodes.length ∧ e.2.1 < g0.nodes.length)
    (gm : SGraph)
    (hm : mergeIdenticalBarriers (createBarrierNodes g0) = some (.ok gm)) :
    ∀ j b', gm.nodes.get? j = some (SNode.barrier b') →
    ∀ p i0 b0, (i0, b0) ∈ barriersOf (createBarrierNodes g0) →
      b0.resource.uid = b'.resource.uid →
      (p, i0, b0.resource.uid) ∈ (createBarrierNodes g0).edges →
      (b'.dst_stage, b'.dst_access) =
        orFold (reachedDsts (createBarrierNodes g0) p b'.resource.uid) := by
  set g := createBarrierNodes g0 with hg
  have hinv : BarInv g0 g := createBarrierNodes_spec g0 hT hE
  have hwfall : ∀ nb ∈ barriersOf g, (barrier_dst_resource g nb.1).isSome = true := by
    intro nb hnb
    obtain ⟨n, b⟩ := nb
    have hget := (barriersOf_mem g n b).mp hnb
    obtain ⟨c, _, _, _, hsome⟩ := barrier_dst_of_inv g0 g hinv.base n b hget
    exact hsome
  unfold mergeIdenticalBarriers at hm
  cases hout : mergeOuter g (barriersOf g) ⟨[], [], []⟩ with
  | none => rw [hout] at hm; cases hm
  | some res =>
    cases res with
    | error e =>
      rw [hout] at hm
      dsimp only at hm
      injection hm with h1
      cases h1
    | ok stF =>
      rw [hout] at hm
      dsimp only at hm
      cases hwf2 : writeFlags stF.flags
          (stF.edgesToAdd.foldl (fun acc e => updateEdge acc e.1 e.2.1 e.2.2) g).nodes
          0 with
      | none => rw [hwf2] at hm; cases hm
      | some ns =>
        rw [hwf2] at hm
        dsimp only at hm
        injection hm with h1
        injection h1 with hgm
        have hinvF : OuterInv g (barriersOf g) stF := by
          have hinv0 : OuterInv g [] ⟨[], [], []⟩ := by
            refine ⟨?_, ?_, ?_⟩
            · intro m
              simp [MergeSt.toRemove]
            · intro nb hnb
              cases hnb
            · intro nb hnb
              cases hnb
          rcases mergeOuter_spec g hwfall (barriersOf g) [] ⟨[], [], []⟩
              (List.nil_append _).symm hinv0 with herr | ⟨stF', hok, hinvF'⟩
          · rw [hout] at herr
            injection herr with h2
            cases h2
          · rw [hout] at hok
            injection hok with h2
            injection h2 with h3
            rw [← h3] at hinvF'
            exact hinvF'
        intro j b' hj p i0 b0 hi0mem hi0uid hi0edge
        rw [← hgm] at hj
        obtain ⟨i, hkeep, hGi⟩ := retainNodes_mem _ _ j (SNode.barrier b') hj
        have hnsi2 : ns.get? i = some (SNode.barrier b') := hGi
        rcases writeFlags_spec stF.flags _ 0 ns hwf2 i with
          ⟨t, _, hns2⟩ | ⟨b0', fl, hg1i, hfl, hns2⟩ | ⟨_, hns2⟩
        · rw [hns2] at hnsi2
          injection hnsi2 with h4
          cases h4
        · rw [hns2] at hnsi2
          injection hnsi2 with h4
          injection h4 with h5
          have hb'eq : b' = { b0' with dst_stage := fl.1, dst_access := fl.2 } := h5.symm
          rw [Nat.zero_add] at hfl
          have hgi : g.nodes.get? i = some (SNode.barrier b0') := by
            rw [← foldl_updateEdge_nodes stF.edgesToAdd g]
            exact hg1i
          have hbmem : (i, b0') ∈ barriersOf g := (barriersOf_mem g i b0').mpr hgi
          have hnotrm : i ∉ stF.toRemove := by
            intro hc
            have : stF.toRemove.contains i = true := by simpa using hc
            rw [this] at hkeep
            cases hkeep
          have hclmem : (i, b0') ∈ classOf g b0'.resource.uid :=
            (classOf_mem g _ _).mpr ⟨hbmem, rfl⟩
          have hhead : (classOf g b0'.resource.uid).head? = some (i, b0') := by
            cases hcl : classOf g b0'.resource.uid with
            | nil => rw [hcl] at hclmem; cases hclmem
            | cons q t =>
              have hqcl : q ∈ classOf g b0'.resource.uid := by
                rw [hcl]
                exact List.mem_cons_self _ _
              obtain ⟨hqbs, hquid⟩ := (classOf_mem g _ _).mp hqcl
              have hiq : i = q.1 := by
                by_contra hne
                refine hnotrm ((hinvF.1 i).mpr ⟨q, hqbs, ?_, ⟨b0', ?_⟩, hne⟩)
                · rw [hquid, hcl]
                  rfl
                · rw [hquid]
                  exact hclmem
              have hq2 : q.2 = b0' := by
                refine barriersOf_functional g i q.2 b0' ?_ hbmem
                rw [hiq]
                exact hqbs
              have hqeq : q = (i, b0') := by
                rw [Prod.ext_iff]
                exact ⟨hiq.symm, hq2⟩
              rw [hqeq]
              rfl
          have hB1 := hinvF.2.1 (i, b0') hbmem hhead
          rw [hfl] at hB1
          have hfleq : fl = classOr g b0'.resource.uid := by
            injection hB1 with h6
          have hwfclass : ∀ nb ∈ classOf g b0'.resource.uid,
              (dstStAc g nb.1).isSome = true := by
            intro nb hnb
            obtain ⟨rr, hrr⟩ := Option.isSome_iff_exists.mp
              (hwfall nb ((classOf_mem g _ _).mp hnb).1)
            unfold dstStAc
            rw [hrr]
            rfl
          have hres : b'.resource.uid = b0'.resource.uid := by
            rw [hb'eq]
          have huid0 : b0.resource.uid = b0'.resource.uid := by
            rw [hi0uid, hres]
          have hfinal : classOr g b0'.resource.uid =
              orFold (reachedDsts g p b0'.resource.uid) := by
            rw [classOr_eq_orFold g _ hwfclass]
            exact orFold_class_eq_reached g0 g hinv b0'.resource.uid p i0 b0
              hi0mem huid0 hi0edge
          have hpair : (b'.dst_stage, b'.dst_access) = fl := by
            rw [hb'eq]
          rw [hpair, hfleq, hfinal, hres]
        · rw [hns2] at hnsi2
          cases hnsi2

/-- Witness scenario for C4: one producer `P` of `x+` and one consumer `Q`. -/
def c4wP : Pass :=
  { name := "P".toList, inputs := [], outputs := [mkRes "x+" .Attachment 0x400] }

def c4wQ : Pass :=
  { name := "Q".toList, inputs := [mkRes "x+" .ShaderRead 0x80], outputs := [] }

def c4wState : GState :=
  (addPasses GpuTaskGraph.new [c4wP, c4wQ]).getD GpuTaskGraph.new

/-- The merged graph of the C4 witness scenario. -/
def c4wMerged : SGraph :=
  match mergeIdenticalBarriers (createBarrierNodes c4wState.graph) with
  | some (.ok gmm) => gmm
  | _ => createBarrierNodes c4wState.graph

/-- The surviving barrier of the C4 witness scenario: destination flags are
`Q`'s stage `0x80` and `SHADER_READ = 0x20`. -/
def c4wB' : GpuBarrier :=
  { resource := mkRes "x+" .Attachment 0x400, src_access := 0x100,
    dst_access := 0x20, src_stage := 0x400, dst_stage := 0x80 }

theorem merge_access_union_per_producer_witness :
    mergeIdenticalBarriers (createBarrierNodes c4wState.graph) = some (.ok c4wMerged) ∧
    c4wMerged.nodes.get? 3 = some (SNode.barrier c4wB') ∧
    (c4wB'.dst_stage, c4wB'.dst_access) =
      orFold (reachedDsts (createBarrierNodes c4wState.graph) 1 c4wB'.resource.uid) :=
  ⟨by decide, by decide,
    merge_access_union_per_producer c4wState.graph (by decide) (by decide) c4wMerged
      (by decide) 3 c4wB' (by decide) 1 3 (GpuBarrier.new (mkRes "x+" .Attachment 0x400))
      (by decide) (by decide) (by decide)⟩
